import Mathlib

/-!
Verification of the RFC 7386 JSON Merge Patch implementation (jsonmerge.go).

The canonical value (a Go `interface{}` holding a decoded JSON document) is
modelled as the inductive type `Json`.  A Go `map[string]interface{}` has no
key order, so an object is represented canonically by its entry list sorted
strictly by key (with respect to the executable byte-wise order `strLtB`);
the predicate `canonB` states this invariant.  The Number payload is
modelled as an integer: no algorithm in the source inspects a number other
than through (serialized) equality, so any infinite scalar domain with an
injective decimal rendering is a faithful choice.
-/

inductive Json where
  | null : Json
  | bool (b : Bool) : Json
  | num (n : Int) : Json
  | str (s : String) : Json
  | arr (xs : List Json) : Json
  | obj (kvs : List (String × Json)) : Json

mutual
def jeq : Json → Json → Bool
  | .null, .null => true
  | .bool a, .bool b => a == b
  | .num a, .num b => a == b
  | .str a, .str b => a == b
  | .arr a, .arr b => jeqL a b
  | .obj a, .obj b => jeqKV a b
  | _, _ => false

def jeqL : List Json → List Json → Bool
  | [], [] => true
  | a :: as_, b :: bs => jeq a b && jeqL as_ bs
  | _, _ => false

def jeqKV : List (String × Json) → List (String × Json) → Bool
  | [], [] => true
  | a :: as_, b :: bs => (a.1 == b.1) && jeq a.2 b.2 && jeqKV as_ bs
  | _, _ => false
end

/-- Byte-wise "less than" on characters, by code point. -/
def charLtB (a b : Char) : Bool := a.val.toNat < b.val.toNat

/-- Lexicographic "less than" on character lists. -/
def charsLtB : List Char → List Char → Bool
  | [], [] => false
  | [], _ :: _ => true
  | _ :: _, [] => false
  | a :: as_, b :: bs =>
    if charLtB a b then true
    else if charLtB b a then false
    else charsLtB as_ bs

/-- Lexicographic string order used to fix the canonical key enumeration of
a Go map. -/
def strLtB (a b : String) : Bool := charsLtB a.data b.data

/-- `isObject` from jsonmerge.go: a value is an object iff it is a
`map[string]interface{}`. -/
def isObject : Json → Bool
  | .obj _ => true
  | _ => false

/-- The entry list of an object, `[]` for any other value (a non-object
target behaves as the empty map in `mergePatch`). -/
def objEntries : Json → List (String × Json)
  | .obj kvs => kvs
  | _ => []

/-- First-match association-list lookup (`m[k]` on the Go map). -/
def lookupKey : List (String × Json) → String → Option Json
  | [], _ => none
  | (k, v) :: rest, key => if k = key then some v else lookupKey rest key

/-- `m[k]` with the Go zero value: an absent key reads as `nil` (Null). -/
def lookupD (l : List (String × Json)) (key : String) : Json :=
  (lookupKey l key).getD .null

/-- Map assignment `m[k] = v` on the canonical (key-sorted) representation:
insert at the sorted position, replacing an existing binding. -/
def insertKey (key : String) (val : Json) :
    List (String × Json) → List (String × Json)
  | [] => [(key, val)]
  | (k, v) :: rest =>
    if strLtB key k then (key, val) :: (k, v) :: rest
    else if key = k then (key, val) :: rest
    else (k, v) :: insertKey key val rest

/-- Map deletion `delete(m, k)`. -/
def eraseKey (key : String) (l : List (String × Json)) :
    List (String × Json) :=
  l.filter (fun kv => kv.1 ≠ key)

/-- Strictly increasing key order: the canonical enumeration of a Go map. -/
def sortedB : List (String × Json) → Bool
  | [] => true
  | [_] => true
  | a :: b :: rest => strLtB a.1 b.1 && sortedB (b :: rest)

mutual
/-- Canonicity: every object below the value has a strictly key-sorted
entry list (the order-free Go map, in canonical form). -/
def canonB : Json → Bool
  | .null => true
  | .bool _ => true
  | .num _ => true
  | .str _ => true
  | .arr xs => canonAll xs
  | .obj kvs => sortedB kvs && canonAllKV kvs

def canonAll : List Json → Bool
  | [] => true
  | x :: xs => canonB x && canonAll xs

def canonAllKV : List (String × Json) → Bool
  | [] => true
  | kv :: rest => canonB kv.2 && canonAllKV rest
end

mutual
/-- `mergePatch` from jsonmerge.go (RFC 7386 section 2): a non-object patch
replaces the target wholesale; an object patch is merged key by key into
the target (an empty map when the target is not an object). -/
def mergePatch (target patch : Json) : Json :=
  match patch with
  | .obj pObj => .obj (mergeEntries (objEntries target) pObj)
  | _ => patch

/-- The `for name, value := range patchObj` loop body of `mergePatch`:
a Null value deletes the key, any other value is merged recursively into
the current binding (`nil`, i.e. Null, when absent). -/
def mergeEntries (acc : List (String × Json)) :
    List (String × Json) → List (String × Json)
  | [] => acc
  | (k, v) :: rest =>
    match v with
    | .null => mergeEntries (eraseKey k acc) rest
    | _ => mergeEntries (insertKey k (mergePatch (lookupD acc k) v) acc) rest
end

/-- Unique keys: the defining property of a Go map enumeration. -/
def keysNodup (l : List (String × Json)) : Prop :=
  (l.map Prod.fst).Nodup

/-- The per-key content of a merged object, read off RFC 7386 / spec section
4.1: a key the patch maps to Null is absent; a key the patch maps to a
non-Null value `v` holds `mergePatch prior v` where `prior` is the target's
binding (Null when absent); a key the patch does not mention keeps the
target's binding. -/
def mergeLookupSpec (tgt ps : List (String × Json)) (key : String) :
    Option Json :=
  match lookupKey ps key with
  | some .null => none
  | some v => some (mergePatch (lookupD tgt key) v)
  | none => lookupKey tgt key

/-- One iteration of the `range patchObj` loop of `mergePatch`, as a state
transformer on the target entries. -/
def mergeStep (acc : List (String × Json)) (kv : String × Json) :
    List (String × Json) :=
  match kv.2 with
  | .null => eraseKey kv.1 acc
  | v => insertKey kv.1 (mergePatch (lookupD acc kv.1) v) acc

/-- Decimal digit character. -/
def digitChar (d : Nat) : Char := Char.ofNat (48 + d)

/-- Is `c` one of the characters 0-9? -/
def isDigitB (c : Char) : Bool := 48 ≤ c.val.toNat && c.val.toNat ≤ 57

/-- Decimal digits of `n`, most significant first (`fuel`-bounded worker;
`fuel > n` always suffices). -/
def natCharsAux : Nat → Nat → List Char
  | 0, _ => []
  | fuel + 1, n =>
    if n < 10 then [digitChar n]
    else natCharsAux fuel (n / 10) ++ [digitChar (n % 10)]

/-- Decimal rendering of a natural number. -/
def natChars (n : Nat) : List Char := natCharsAux (n + 1) n

/-- Decimal rendering of an integer (Go's number encoder). -/
def intChars : Int → List Char
  | .ofNat n => natChars n
  | .negSucc m => '-' :: natChars (m + 1)

/-- JSON string escaping: quote and backslash are escaped with a backslash.
(Go's encoder also escapes control characters; the escape alphabet does not
matter to any algorithm here, only that escaping is parseable, so the
two-character escape class is kept minimal.) -/
def quoteChars : List Char → List Char
  | [] => []
  | c :: cs =>
    if c = '"' ∨ c = '\\' then '\\' :: c :: quoteChars cs
    else c :: quoteChars cs

def lbrace : Char := Char.ofNat 123

def rbrace : Char := Char.ofNat 125

mutual
/-- The serialized form of a canonical value: a deterministic model of
`json.Marshal` over the canonical (key-sorted) object representation. -/
def jChars : Json → List Char
  | .null => 'n' :: ['u', 'l', 'l']
  | .bool true => 't' :: ['r', 'u', 'e']
  | .bool false => 'f' :: ['a', 'l', 's', 'e']
  | .num n => intChars n
  | .str s => '"' :: (quoteChars s.data ++ ['"'])
  | .arr xs => '[' :: jCharsArr xs
  | .obj kvs => lbrace :: jCharsObj kvs

def jCharsArr : List Json → List Char
  | [] => [']']
  | [x] => jChars x ++ [']']
  | x :: y :: rest => jChars x ++ (',' :: jCharsArr (y :: rest))

def jCharsObj : List (String × Json) → List Char
  | [] => [rbrace]
  | [(k, v)] => '"' :: (quoteChars k.data ++ ('"' :: ':' :: jChars v)) ++ [rbrace]
  | (k, v) :: kv :: rest =>
    '"' :: (quoteChars k.data ++ ('"' :: ':' :: jChars v)) ++
      (',' :: jCharsObj (kv :: rest))
end

/-- `json.Marshal` of a canonical value, as a string. -/
def marshal (v : Json) : String := String.mk (jChars v)

/-- `deepEqual` from jsonmerge.go: serialize both values and compare the
serialized forms (the Go code compares the two `json.Marshal` outputs). -/
def deepEqual (a b : Json) : Bool := marshal a == marshal b

/-- Parse a maximal run of decimal digits into its value. -/
def parseNatChars (cs : List Char) : Option (Nat × List Char) :=
  let digs := cs.takeWhile isDigitB
  if digs.isEmpty then none
  else some (digs.foldl (fun a c => 10 * a + (c.val.toNat - 48)) 0,
    cs.dropWhile isDigitB)

/-- Parse the remainder of a JSON string literal (after the opening quote),
undoing `quoteChars` (`fuel`-bounded; the input length always suffices). -/
def parseStrChars : Nat → List Char → Option (List Char × List Char)
  | 0, _ => none
  | _ + 1, [] => none
  | fuel + 1, c :: cs =>
    if c = '"' then some ([], cs)
    else if c = '\\' then
      match cs with
      | [] => none
      | d :: cs' =>
        match parseStrChars fuel cs' with
        | none => none
        | some (s, r) => some (d :: s, r)
    else
      match parseStrChars fuel cs with
      | none => none
      | some (s, r) => some (c :: s, r)

mutual
/-- Recursive-descent JSON value parser (`fuel`-bounded), the inverse of
`jChars`; a model of `json.Unmarshal` restricted to the texts `jChars`
produces. -/
def parseV : Nat → List Char → Option (Json × List Char)
  | 0, _ => none
  | _ + 1, [] => none
  | fuel + 1, c :: cs =>
    if c = 'n' then
      match cs with
      | 'u' :: 'l' :: 'l' :: rest => some (.null, rest)
      | _ => none
    else if c = 't' then
      match cs with
      | 'r' :: 'u' :: 'e' :: rest => some (.bool true, rest)
      | _ => none
    else if c = 'f' then
      match cs with
      | 'a' :: 'l' :: 's' :: 'e' :: rest => some (.bool false, rest)
      | _ => none
    else if c = '"' then
      match parseStrChars cs.length cs with
      | some (s, r) => some (.str (String.mk s), r)
      | none => none
    else if c = '[' then parseElems fuel cs
    else if c = lbrace then parseMems fuel cs
    else if c = '-' then
      match parseNatChars cs with
      | some (k, r) => some (.num (-(k : Int)), r)
      | none => none
    else if isDigitB c then
      match parseNatChars (c :: cs) with
      | some (k, r) => some (.num (k : Int), r)
      | none => none
    else none

/-- Parse the elements of an array (after the opening bracket). -/
def parseElems : Nat → List Char → Option (Json × List Char)
  | 0, _ => none
  | _ + 1, [] => none
  | fuel + 1, c :: cs =>
    if c = ']' then some (.arr [], cs)
    else
      match parseV fuel (c :: cs) with
      | none => none
      | some (v, r) =>
        match r with
        | [] => none
        | d :: r' =>
          if d = ',' then
            match parseElems fuel r' with
            | some (.arr vs, r2) => some (.arr (v :: vs), r2)
            | _ => none
          else if d = ']' then some (.arr [v], r')
          else none

/-- Parse the members of an object (after the opening brace). -/
def parseMems : Nat → List Char → Option (Json × List Char)
  | 0, _ => none
  | _ + 1, [] => none
  | fuel + 1, c :: cs =>
    if c = rbrace then some (.obj [], cs)
    else if c = '"' then
      match parseStrChars cs.length cs with
      | none => none
      | some (k, r) =>
        match r with
        | ':' :: r' =>
          match parseV fuel r' with
          | none => none
          | some (v, r2) =>
            match r2 with
            | [] => none
            | d :: r3 =>
              if d = ',' then
                match parseMems fuel r3 with
                | some (.obj ms, r4) => some (.obj ((String.mk k, v) :: ms), r4)
                | _ => none
              else if d = rbrace then some (.obj [(String.mk k, v)], r3)
              else none
        | _ => none
    else none
end

/-- No leading digit: the context in which a serialized number is
unambiguous. -/
def headNotDigit (rest : List Char) : Prop :=
  ∀ c, rest.head? = some c → isDigitB c = false

mutual
/-- No Null-valued object member anywhere outside arrays: the class of
targets whose verbatim inclusion in a patch survives a merge (RFC 7386 can
not express a literal Null member, since Null in a patch means deletion). -/
def onfB : Json → Bool
  | .obj kvs => onfKV kvs
  | _ => true

def onfKV : List (String × Json) → Bool
  | [] => true
  | (_, .null) :: _ => false
  | (_, v) :: rest => onfB v && onfKV rest
end


/-- The deletion pass of `generatePatch`: for every key of the source
absent from the target, add a `key : Null` deletion marker. -/
def genDels (tObj : List (String × Json)) (acc : List (String × Json)) :
    List (String × Json) → List (String × Json)
  | [] => acc
  | (k, _) :: rest =>
    match lookupKey tObj k with
    | some _ => genDels tObj acc rest
    | none => genDels tObj (insertKey k .null acc) rest

mutual
/-- `generatePatch` from jsonmerge.go: if either side is not an object the
target is the whole patch; otherwise keys of the target are added when
absent in source or changed (recursing when both values are objects and
keeping only non-empty nested patches), and keys of the source absent
from the target map to Null. -/
def generatePatch (source target : Json) : Json :=
  match source, target with
  | .obj sObj, .obj tObj => .obj (genDels tObj (genAdds sObj tObj) sObj)
  | _, _ => target

/-- The `for key, targetValue := range targetObj` loop of `generatePatch`. -/
def genAdds (sObj : List (String × Json)) :
    List (String × Json) → List (String × Json)
  | [] => []
  | (k, tv) :: rest =>
    let acc := genAdds sObj rest
    match lookupKey sObj k with
    | some sv =>
      if isObject sv && isObject tv then
        (if (objEntries (generatePatch sv tv)).isEmpty then acc
         else insertKey k (generatePatch sv tv) acc)
      else if deepEqual sv tv then acc
      else insertKey k tv acc
    | none => insertKey k tv acc
end

/-- The patch entry `generatePatch` produces for a target entry
`key : tv` given the source object: absent in source, or changed, the
target value verbatim; both objects, the non-empty nested patch; no
difference, nothing. -/
def genValueSpec (sObj : List (String × Json)) (key : String) (tv : Json) :
    Option Json :=
  match lookupKey sObj key with
  | some sv =>
    if isObject sv && isObject tv then
      (if (objEntries (generatePatch sv tv)).isEmpty then none
       else some (generatePatch sv tv))
    else if deepEqual sv tv then none else some tv
  | none => some tv

/-! ### The conversion layer (document adapter) -/

/-- The `Document` cases `convertToInterface` dispatches on: serialized
bytes, a string, a `map[string]any` (already canonical), `nil`, and the
scalar pass-through cases (`bool` and the numeric types). -/
inductive GoDoc where
  | bytes (s : String)
  | text (s : String)
  | mapDoc (kvs : List (String × Json))
  | nilDoc : GoDoc
  | boolDoc (b : Bool)
  | intDoc (n : Int)

/-- Modelled from the spec: `json.Unmarshal` (the external
go-json-experiment dependency, not part of src/) parses a serialized JSON
text into a canonical value, failing on malformed input.  The model is the
recursive-descent parser `parseV` requiring full consumption. -/
def parseJson (s : String) : Option Json :=
  match parseV (s.data.length + 1) s.data with
  | some (v, []) => some v
  | _ => none

/-- `convertToInterface` from jsonmerge.go: bytes must parse as JSON (a
hard `ErrInvalidJSON` failure otherwise, modelled as `none`); a string
that fails to parse becomes a raw String scalar; maps, `nil` and scalars
pass through. -/
def convertToInterface : GoDoc → Option Json
  | .bytes s =>
    match parseJson s with
    | some v => some v
    | none => none
  | .text s =>
    match parseJson s with
    | some v => some v
    | none => some (.str s)
  | .mapDoc kvs => some (.obj kvs)
  | .nilDoc => some .null
  | .boolDoc b => some (.bool b)
  | .intDoc n => some (.num n)

/-- `Valid` from jsonmerge.go: a patch is valid iff it converts. -/
def Valid (d : GoDoc) : Bool := (convertToInterface d).isSome

/-! ### The heap model: mutation and isolation

`mergePatch` in Go mutates `map[string]interface{}` values in place, and
`Merge` in its default (copy) isolation mode first deep-clones the target.
The value graph is modelled with explicit references: scalars and slices
are immutable values, a map is a reference (`href`) to a mutable cell in a
`Heap`.  All recursion is fuel-bounded (structural), so every run is
executable; a `none` result only means the fuel ran out or a reference
dangled. -/

inductive HVal where
  | hnull : HVal
  | hbool (b : Bool) : HVal
  | hnum (n : Int) : HVal
  | hstr (s : String) : HVal
  | harr (xs : List HVal) : HVal
  | href (a : Nat) : HVal

mutual
def hveq : HVal → HVal → Bool
  | .hnull, .hnull => true
  | .hbool a, .hbool b => a == b
  | .hnum a, .hnum b => a == b
  | .hstr a, .hstr b => a == b
  | .harr a, .harr b => hveqL a b
  | .href a, .href b => a == b
  | _, _ => false

def hveqL : List HVal → List HVal → Bool
  | [], [] => true
  | a :: as_, b :: bs => hveq a b && hveqL as_ bs
  | _, _ => false
end

/-- The contents of one map cell. -/
abbrev HObj := List (String × HVal)

/-- The mutable store: map cells addressed by allocation order, plus the
next fresh address. -/
structure Heap where
  cells : List (Nat × HObj)
  nxt : Nat

def cellsLookup : List (Nat × HObj) → Nat → Option HObj
  | [], _ => none
  | (b, o) :: rest, a => if b = a then some o else cellsLookup rest a

/-- Dereference a map cell. -/
def lookupCell (h : Heap) (a : Nat) : Option HObj := cellsLookup h.cells a

def cellsSet : List (Nat × HObj) → Nat → HObj → List (Nat × HObj)
  | [], _, _ => []
  | (b, o) :: rest, a, o2 =>
    if b = a then (b, o2) :: rest else (b, o) :: cellsSet rest a o2

/-- Overwrite the contents of a cell (in-place map mutation). -/
def setCell (h : Heap) (a : Nat) (o : HObj) : Heap :=
  ⟨cellsSet h.cells a o, h.nxt⟩

/-- `make(map[string]interface{})`: allocate a fresh empty-ish cell. -/
def alloc (h : Heap) (o : HObj) : Heap × Nat :=
  (⟨(h.nxt, o) :: h.cells, h.nxt + 1⟩, h.nxt)

def objGet : HObj → String → HVal
  | [], _ => .hnull
  | (k2, v) :: rest, k => if k2 = k then v else objGet rest k

def objSet : HObj → String → HVal → HObj
  | [], k, v => [(k, v)]
  | (k2, v2) :: rest, k, v =>
    if k2 = k then (k2, v) :: rest else (k2, v2) :: objSet rest k v

def objDel (o : HObj) (k : String) : HObj := o.filter (fun kv => kv.1 ≠ k)

/-- `targetObj[name]` (`nil`, i.e. `hnull`, when the key is absent). -/
def getField (h : Heap) (ta : Nat) (k : String) : HVal :=
  match lookupCell h ta with
  | some o => objGet o k
  | none => .hnull

/-- `targetObj[name] = v` (a no-op on a dangling reference). -/
def putField (h : Heap) (ta : Nat) (k : String) (v : HVal) : Heap :=
  match lookupCell h ta with
  | some o => setCell h ta (objSet o k v)
  | none => h

/-- `delete(targetObj, name)`. -/
def delField (h : Heap) (ta : Nat) (k : String) : Heap :=
  match lookupCell h ta with
  | some o => setCell h ta (objDel o k)
  | none => h

mutual
/-- Modelled from the spec: the deep clone of the target taken by the
default (copy) isolation mode ("the merge operates on a deep copy of
`target`"; the `deepclone` dependency is not part of src/).  Every map
cell reachable from the value is rebuilt at a fresh address; slices are
rebuilt element-wise; scalars are copied. -/
def cloneV : Nat → Heap → HVal → Option (Heap × HVal)
  | 0, _, _ => none
  | fuel + 1, h, v =>
    match v with
    | .href a =>
      match lookupCell h a with
      | none => none
      | some o =>
        match cloneObj fuel h o with
        | none => none
        | some (h1, o2) =>
          match alloc h1 o2 with
          | (h2, a2) => some (h2, .href a2)
    | .harr xs =>
      match cloneList fuel h xs with
      | none => none
      | some (h1, xs2) => some (h1, .harr xs2)
    | w => some (h, w)

def cloneObj : Nat → Heap → HObj → Option (Heap × HObj)
  | 0, _, _ => none
  | _ + 1, h, [] => some (h, [])
  | fuel + 1, h, (k, v) :: rest =>
    match cloneV fuel h v with
    | none => none
    | some (h1, v2) =>
      match cloneObj fuel h1 rest with
      | none => none
      | some (h2, rest2) => some (h2, (k, v2) :: rest2)

def cloneList : Nat → Heap → List HVal → Option (Heap × List HVal)
  | 0, _, _ => none
  | _ + 1, h, [] => some (h, [])
  | fuel + 1, h, x :: rest =>
    match cloneV fuel h x with
    | none => none
    | some (h1, x2) =>
      match cloneList fuel h1 rest with
      | none => none
      | some (h2, rest2) => some (h2, x2 :: rest2)
end

mutual
/-- `mergePatch` on the heap, as Go executes it: a non-map patch is
returned as a value (sharing any references it contains); a map patch is
merged into the target's cell, or into a freshly allocated cell when the
target is not a map. -/
def mergeH : Nat → Heap → HVal → HVal → Option (Heap × HVal)
  | 0, _, _, _ => none
  | fuel + 1, h, target, patch =>
    match patch with
    | .href pa =>
      match lookupCell h pa with
      | none => none
      | some pObj =>
        match target with
        | .href ta =>
          match mergeInto fuel h ta pObj with
          | none => none
          | some h2 => some (h2, .href ta)
        | _ =>
          match alloc h [] with
          | (h1, a) =>
            match mergeInto fuel h1 a pObj with
            | none => none
            | some h2 => some (h2, .href a)
    | w => some (h, w)

/-- The `range patchObj` loop, writing into the target cell `ta`. -/
def mergeInto : Nat → Heap → Nat → HObj → Option Heap
  | 0, _, _, _ => none
  | _ + 1, h, _, [] => some h
  | fuel + 1, h, ta, (k, v) :: rest =>
    match v with
    | .hnull => mergeInto fuel (delField h ta k) ta rest
    | _ =>
      match mergeH fuel h (getField h ta k) v with
      | none => none
      | some (h1, merged) => mergeInto fuel (putField h1 ta k merged) ta rest
end

/-- `Merge` in default (copy) isolation mode: deep-clone the target, then
run the mutating merge on the clone. -/
def mergeCopy (fuel : Nat) (h : Heap) (t p : HVal) : Option (Heap × HVal) :=
  match cloneV fuel h t with
  | none => none
  | some (h1, t2) => mergeH fuel h1 t2 p

mutual
/-- The document a heap value denotes (the caller's view of the data):
follow references and rebuild the tree. -/
def readBack : Nat → Heap → HVal → Option Json
  | 0, _, _ => none
  | fuel + 1, h, v =>
    match v with
    | .hnull => some .null
    | .hbool b => some (.bool b)
    | .hnum n => some (.num n)
    | .hstr s => some (.str s)
    | .harr xs =>
      match readBackList fuel h xs with
      | some js => some (.arr js)
      | none => none
    | .href a =>
      match lookupCell h a with
      | none => none
      | some o =>
        match readBackObj fuel h o with
        | some kvs => some (.obj kvs)
        | none => none

def readBackList : Nat → Heap → List HVal → Option (List Json)
  | 0, _, _ => none
  | _ + 1, _, [] => some []
  | fuel + 1, h, x :: rest =>
    match readBack fuel h x with
    | none => none
    | some j =>
      match readBackList fuel h rest with
      | none => none
      | some js => some (j :: js)

def readBackObj : Nat → Heap → HObj → Option (List (String × Json))
  | 0, _, _ => none
  | _ + 1, _, [] => some []
  | fuel + 1, h, (k, v) :: rest =>
    match readBack fuel h v with
    | none => none
    | some j =>
      match readBackObj fuel h rest with
      | none => none
      | some js => some ((k, j) :: js)
end

mutual
/-- All references under the value point below `n`. -/
def valBelow (n : Nat) : HVal → Bool
  | .href a => decide (a < n)
  | .harr xs => listBelow n xs
  | _ => true

def listBelow (n : Nat) : List HVal → Bool
  | [] => true
  | x :: rest => valBelow n x && listBelow n rest
end

def objBelow (n : Nat) : HObj → Bool
  | [] => true
  | (_, v) :: rest => valBelow n v && objBelow n rest

/-- Well-bounded heap: every cell sits below `nxt` and references only
addresses below `nxt`. -/
def cellsWB (n : Nat) : List (Nat × HObj) → Bool
  | [] => true
  | (a, o) :: rest => decide (a < n) && objBelow n o && cellsWB n rest

def heapWB (h : Heap) : Bool := cellsWB h.nxt h.cells

/-- A value that is a reference points at or above `B` (the merge only
ever uses such values as mutation targets). -/
def fieldOKB (B : Nat) : HVal → Bool
  | .href a => decide (B ≤ a)
  | _ => true

def objOKB (B : Nat) : HObj → Bool
  | [] => true
  | (_, v) :: rest => fieldOKB B v && objOKB B rest

/-- Every cell at or above `B` has only fields whose direct references
are at or above `B`: the merge's target region is closed. -/
def heapOKB (B : Nat) : List (Nat × HObj) → Bool
  | [] => true
  | (a, o) :: rest => (decide (a < B) || objOKB B o) && heapOKB B rest

mutual
/-- No reference under the value lands in the address list `T`. -/
def valNotIn (T : List Nat) : HVal → Bool
  | .href a => !(T.contains a)
  | .harr xs => listNotIn T xs
  | _ => true

def listNotIn (T : List Nat) : List HVal → Bool
  | [] => true
  | x :: rest => valNotIn T x && listNotIn T rest
end

def objNotIn (T : List Nat) : HObj → Bool
  | [] => true
  | (_, v) :: rest => valNotIn T v && objNotIn T rest

/-- Every cell outside `T` references nothing inside `T`: `T` is an
isolated region (e.g. the sub-graph of the original target). -/
def cellsNotIn (T : List Nat) : List (Nat × HObj) → Bool
  | [] => true
  | (a, o) :: rest => (T.contains a || objNotIn T o) && cellsNotIn T rest

/-! ### Decidable equality of the model -/

theorem jeqL_iff (xs ys : List Json)
    (h : ∀ x ∈ xs, ∀ b, jeq x b = true ↔ x = b) :
    jeqL xs ys = true ↔ xs = ys := by
  induction xs generalizing ys with
  | nil => cases ys <;> simp [jeqL]
  | cons x xs ihx =>
    cases ys with
    | nil => simp [jeqL]
    | cons y ys =>
      have h1 := h x (by simp)
      have h2 := ihx ys (fun z hz b => h z (by simp [hz]) b)
      simp [jeqL, h1, h2]

theorem jeqKV_iff (xs ys : List (String × Json))
    (h : ∀ x ∈ xs, ∀ b, jeq x.2 b = true ↔ x.2 = b) :
    jeqKV xs ys = true ↔ xs = ys := by
  induction xs generalizing ys with
  | nil => cases ys <;> simp [jeqKV]
  | cons x xs ihx =>
    cases ys with
    | nil => simp [jeqKV]
    | cons y ys =>
      have h1 := h x (by simp)
      have h2 := ihx ys (fun z hz b => h z (by simp [hz]) b)
      rcases x with ⟨k, v⟩
      rcases y with ⟨k', v'⟩
      simp [jeqKV, h1, h2, Prod.ext_iff, and_assoc]

theorem jeq_iff (a b : Json) : jeq a b = true ↔ a = b := by
  have main : ∀ n (a b : Json), sizeOf a ≤ n → (jeq a b = true ↔ a = b) := by
    intro n
    induction n using Nat.strong_induction_on with
    | _ n ih =>
      intro a b hle
      cases a <;> cases b <;> simp [jeq]
      case arr.arr xs ys =>
        refine (jeqL_iff xs ys ?_).trans (by simp)
        intro x hx b
        have h1 : sizeOf x < sizeOf (Json.arr xs) := by
          have := List.sizeOf_lt_of_mem hx
          simp only [Json.arr.sizeOf_spec]
          omega
        exact ih (sizeOf x) (by omega) x b le_rfl
      case obj.obj xs ys =>
        refine (jeqKV_iff xs ys ?_).trans (by simp)
        intro x hx b
        have h1 : sizeOf x.2 < sizeOf (Json.obj xs) := by
          have h2 := List.sizeOf_lt_of_mem hx
          rcases x with ⟨k, v⟩
          simp only [Json.obj.sizeOf_spec, Prod.mk.sizeOf_spec] at h2 ⊢
          omega
        exact ih (sizeOf x.2) (by omega) x.2 b le_rfl
  exact main (sizeOf a) a b le_rfl

instance : DecidableEq Json := fun a b => decidable_of_iff _ (jeq_iff a b)

/-! ### Properties of the key order -/

theorem charLtB_eq {a b : Char} (h1 : charLtB a b = false)
    (h2 : charLtB b a = false) : a = b := by
  apply Char.ext
  apply UInt32.ext
  simp [charLtB] at h1 h2
  omega

theorem charsLtB_irrefl (l : List Char) : charsLtB l l = false := by
  induction l with
  | nil => rfl
  | cons c cs ih => simp [charsLtB, charLtB, ih]

theorem charsLtB_trans :
    ∀ {a b c : List Char}, charsLtB a b = true → charsLtB b c = true →
      charsLtB a c = true := by
  intro a
  induction a with
  | nil =>
    intro b c hab hbc
    match b, c with
    | [], _ => simp [charsLtB] at hab
    | _ :: _, [] => simp [charsLtB] at hbc
    | _ :: _, _ :: _ => simp [charsLtB]
  | cons x xs ih =>
    intro b c hab hbc
    match b, c with
    | [], _ => simp [charsLtB] at hab
    | _ :: _, [] => simp [charsLtB] at hbc
    | y :: ys, z :: zs =>
      simp only [charsLtB] at hab hbc ⊢
      by_cases h1 : charLtB x y = true
      · by_cases h3 : charLtB y z = true
        · have hxz : charLtB x z = true := by
            simp [charLtB] at h1 h3 ⊢
            omega
          simp [hxz]
        · by_cases h4 : charLtB z y = true
          · simp [h3, h4] at hbc
          · have hyz : y = z :=
              charLtB_eq (Bool.not_eq_true _ ▸ h3) (Bool.not_eq_true _ ▸ h4)
            subst hyz
            simp [h1]
      · by_cases h2 : charLtB y x = true
        · simp [h1, h2] at hab
        · have hxy : x = y :=
            charLtB_eq (Bool.not_eq_true _ ▸ h1) (Bool.not_eq_true _ ▸ h2)
          subst hxy
          simp only [if_neg h1, if_neg h2] at hab
          by_cases h3 : charLtB x z = true
          · simp [h3]
          · by_cases h4 : charLtB z x = true
            · simp [h3, h4] at hbc
            · simp only [if_neg h3, if_neg h4] at hbc ⊢
              exact ih hab hbc

theorem charsLtB_eq_of :
    ∀ {a b : List Char}, charsLtB a b = false → charsLtB b a = false → a = b := by
  intro a
  induction a with
  | nil =>
    intro b h1 h2
    cases b with
    | nil => rfl
    | cons y ys => simp [charsLtB] at h1
  | cons x xs ih =>
    intro b h1 h2
    cases b with
    | nil => simp [charsLtB] at h2
    | cons y ys =>
      simp only [charsLtB] at h1 h2
      by_cases hxy : charLtB x y = true
      · simp [hxy] at h1
      · by_cases hyx : charLtB y x = true
        · simp [hyx] at h2
        · have he : x = y :=
            charLtB_eq (Bool.not_eq_true _ ▸ hxy) (Bool.not_eq_true _ ▸ hyx)
          subst he
          simp only [if_neg hxy, if_neg hyx] at h1 h2
          exact congrArg (List.cons x) (ih h1 h2)

theorem strLtB_irrefl (a : String) : strLtB a a = false :=
  charsLtB_irrefl a.data

theorem strLtB_trans {a b c : String} (h1 : strLtB a b = true)
    (h2 : strLtB b c = true) : strLtB a c = true :=
  charsLtB_trans h1 h2

theorem strLtB_eq_of {a b : String} (h1 : strLtB a b = false)
    (h2 : strLtB b a = false) : a = b := by
  have := charsLtB_eq_of h1 h2
  cases a; cases b
  exact congrArg String.mk this

theorem strLtB_asymm {a b : String} (h : strLtB a b = true) :
    strLtB b a = false := by
  by_contra hc
  have h2 : strLtB b a = true := by
    cases hba : strLtB b a
    · exact absurd hba hc
    · rfl
  have h3 := strLtB_trans h h2
  rw [strLtB_irrefl] at h3
  exact Bool.false_ne_true h3

theorem strLtB_ne {a b : String} (h : strLtB a b = true) : a ≠ b := by
  intro he
  subst he
  rw [strLtB_irrefl] at h
  exact Bool.false_ne_true h

theorem strLtB_of_ne {a b : String} (h : a ≠ b) :
    strLtB a b = true ∨ strLtB b a = true := by
  cases h1 : strLtB a b
  · cases h2 : strLtB b a
    · exact absurd (strLtB_eq_of h1 h2) h
    · exact Or.inr rfl
  · exact Or.inl rfl

/-! ### Association-list lemmas -/

theorem lookupKey_cons_self (k : String) (v : Json) (l : List (String × Json)) :
    lookupKey ((k, v) :: l) k = some v := by
  simp [lookupKey]

theorem lookupKey_some_mem {l : List (String × Json)} {key : String} {v : Json}
    (h : lookupKey l key = some v) : (key, v) ∈ l := by
  induction l with
  | nil => simp [lookupKey] at h
  | cons kv rest ih =>
    obtain ⟨k, w⟩ := kv
    by_cases hk : k = key
    · subst hk
      simp [lookupKey] at h
      simp [h]
    · simp [lookupKey, hk] at h
      exact List.mem_cons_of_mem _ (ih h)

theorem sortedB_tail {a : String × Json} {l : List (String × Json)}
    (h : sortedB (a :: l) = true) : sortedB l = true := by
  cases l with
  | nil => rfl
  | cons b rest =>
    simp [sortedB] at h
    exact h.2

theorem sortedB_head_lt {a : String × Json} {l : List (String × Json)}
    (h : sortedB (a :: l) = true) :
    ∀ kv ∈ l, strLtB a.1 kv.1 = true := by
  induction l generalizing a with
  | nil => intro kv hkv; simp at hkv
  | cons b rest ih =>
    intro kv hkv
    simp only [sortedB, Bool.and_eq_true] at h
    rcases List.mem_cons.mp hkv with h1 | h1
    · subst h1; exact h.1
    · exact strLtB_trans h.1 (ih h.2 kv h1)

theorem sortedB_cons_of {a : String × Json} {l : List (String × Json)}
    (hl : sortedB l = true) (ha : ∀ kv ∈ l, strLtB a.1 kv.1 = true) :
    sortedB (a :: l) = true := by
  cases l with
  | nil => rfl
  | cons b rest =>
    simp only [sortedB, Bool.and_eq_true]
    exact ⟨ha b (by simp), hl⟩

theorem lookupKey_eq_none_of_lt {l : List (String × Json)} {key : String}
    (h : ∀ kv ∈ l, strLtB key kv.1 = true) : lookupKey l key = none := by
  induction l with
  | nil => rfl
  | cons kv rest ih =>
    have hne : kv.1 ≠ key := fun he => strLtB_ne (h kv (by simp)) he.symm
    obtain ⟨k, v⟩ := kv
    simp only [lookupKey, if_neg hne]
    exact ih (fun x hx => h x (by simp [hx]))

theorem lookupKey_insert (k : String) (v : Json) (l : List (String × Json))
    (key : String) :
    lookupKey (insertKey k v l) key =
      if key = k then some v else lookupKey l key := by
  induction l with
  | nil =>
    simp only [insertKey, lookupKey]
    by_cases h : key = k
    · simp [h]
    · simp [h, Ne.symm h]
  | cons kv rest ih =>
    obtain ⟨k', v'⟩ := kv
    simp only [insertKey]
    by_cases h1 : strLtB k k' = true
    · simp only [if_pos h1, lookupKey]
      by_cases h : key = k
      · simp [h]
      · simp [h, Ne.symm h]
    · simp only [if_neg h1]
      by_cases h2 : k = k'
      · subst h2
        simp only [if_pos rfl, lookupKey]
        by_cases h : key = k
        · simp [h]
        · simp [h, Ne.symm h]
      · simp only [if_neg h2, lookupKey]
        by_cases hk : key = k
        · subst hk
          have h2' : ¬ k' = key := fun he => h2 he.symm
          simp [h2', ih]
        · by_cases h3 : k' = key
          · simp [h3, hk]
          · simp [h3, hk, ih]

theorem lookupKey_erase (k : String) (l : List (String × Json)) (key : String) :
    lookupKey (eraseKey k l) key =
      if key = k then none else lookupKey l key := by
  induction l with
  | nil => simp [eraseKey, lookupKey]
  | cons kv rest ih =>
    obtain ⟨k', v'⟩ := kv
    simp only [eraseKey, List.filter_cons] at ih ⊢
    simp only [ne_eq, decide_not] at ih ⊢
    by_cases h1 : k' = k
    · subst h1
      by_cases h : key = k'
      · simp [h] at ih ⊢
        exact ih
      · simp [h, Ne.symm h, lookupKey] at ih ⊢
        exact ih
    · by_cases h : key = k
      · have h2 : ¬ k' = key := fun he => h1 (he.trans h)
        subst h
        simp [h1, h2, lookupKey, ih]
      · by_cases h3 : k' = key
        · simp [h1, h3, lookupKey, ih, h]
        · simp [h1, h3, lookupKey, ih, h]

/-! ### Sortedness preservation and extensionality -/

theorem mem_insertKey {kv : String × Json} {k : String} {v : Json}
    {l : List (String × Json)} (h : kv ∈ insertKey k v l) :
    kv = (k, v) ∨ kv ∈ l := by
  induction l with
  | nil => simpa [insertKey] using h
  | cons kv' rest ih =>
    obtain ⟨k', v'⟩ := kv'
    simp only [insertKey] at h
    by_cases h1 : strLtB k k' = true
    · rw [if_pos h1] at h
      simpa using h
    · rw [if_neg h1] at h
      by_cases h2 : k = k'
      · rw [if_pos h2] at h
        rcases List.mem_cons.mp h with h3 | h3
        · exact Or.inl h3
        · exact Or.inr (List.mem_cons_of_mem _ h3)
      · rw [if_neg h2] at h
        rcases List.mem_cons.mp h with h3 | h3
        · exact Or.inr (by simp [h3])
        · rcases ih h3 with h4 | h4
          · exact Or.inl h4
          · exact Or.inr (List.mem_cons_of_mem _ h4)

theorem insertKey_sorted {l : List (String × Json)} (k : String) (v : Json)
    (h : sortedB l = true) : sortedB (insertKey k v l) = true := by
  induction l with
  | nil => rfl
  | cons kv' rest ih =>
    obtain ⟨k', v'⟩ := kv'
    simp only [insertKey]
    by_cases h1 : strLtB k k' = true
    · rw [if_pos h1]
      refine sortedB_cons_of h ?_
      intro kv hkv
      rcases List.mem_cons.mp hkv with h2 | h2
      · subst h2; exact h1
      · exact strLtB_trans h1 (sortedB_head_lt h kv h2)
    · rw [if_neg h1]
      by_cases h2 : k = k'
      · rw [if_pos h2]
        subst h2
        refine sortedB_cons_of (sortedB_tail h) ?_
        intro kv hkv
        exact sortedB_head_lt h kv hkv
      · rw [if_neg h2]
        refine sortedB_cons_of (ih (sortedB_tail h)) ?_
        intro kv hkv
        rcases mem_insertKey hkv with h3 | h3
        · subst h3
          rcases strLtB_of_ne h2 with h4 | h4
          · exact absurd h4 h1
          · exact h4
        · exact sortedB_head_lt h kv h3

theorem eraseKey_sorted {l : List (String × Json)} (k : String)
    (h : sortedB l = true) : sortedB (eraseKey k l) = true := by
  induction l with
  | nil => rfl
  | cons kv' rest ih =>
    obtain ⟨k', v'⟩ := kv'
    by_cases h1 : k' = k
    · have he : eraseKey k ((k', v') :: rest) = eraseKey k rest := by
        simp [eraseKey, List.filter_cons, h1]
      rw [he]
      exact ih (sortedB_tail h)
    · have he : eraseKey k ((k', v') :: rest) = (k', v') :: eraseKey k rest := by
        simp [eraseKey, List.filter_cons, h1]
      rw [he]
      refine sortedB_cons_of (ih (sortedB_tail h)) ?_
      intro kv hkv
      exact sortedB_head_lt h kv (List.mem_of_mem_filter hkv)

theorem sortedB_keysNodup {l : List (String × Json)}
    (h : sortedB l = true) : keysNodup l := by
  induction l with
  | nil => simp [keysNodup]
  | cons kv rest ih =>
    simp only [keysNodup, List.map_cons, List.nodup_cons]
    constructor
    · intro hmem
      obtain ⟨kv', hkv', heq⟩ := List.mem_map.mp hmem
      have := sortedB_head_lt h kv' hkv'
      rw [heq] at this
      exact strLtB_ne this rfl
    · exact ih (sortedB_tail h)

theorem sorted_ext {l₁ l₂ : List (String × Json)}
    (h1 : sortedB l₁ = true) (h2 : sortedB l₂ = true)
    (h : ∀ key, lookupKey l₁ key = lookupKey l₂ key) : l₁ = l₂ := by
  induction l₁ generalizing l₂ with
  | nil =>
    cases l₂ with
    | nil => rfl
    | cons kv rest =>
      obtain ⟨k, v⟩ := kv
      have := h k
      rw [lookupKey_cons_self] at this
      simp [lookupKey] at this
  | cons kv t₁ ih =>
    obtain ⟨k₁, v₁⟩ := kv
    cases l₂ with
    | nil =>
      have := h k₁
      rw [lookupKey_cons_self] at this
      simp [lookupKey] at this
    | cons kv₂ t₂ =>
      obtain ⟨k₂, v₂⟩ := kv₂
      have hkeys : k₁ = k₂ := by
        by_contra hne
        have e1 : lookupKey ((k₂, v₂) :: t₂) k₁ = some v₁ := by
          rw [← h k₁, lookupKey_cons_self]
        have e2 : lookupKey ((k₁, v₁) :: t₁) k₂ = some v₂ := by
          rw [h k₂, lookupKey_cons_self]
        have m1 : (k₁, v₁) ∈ (k₂, v₂) :: t₂ := lookupKey_some_mem e1
        have m2 : (k₂, v₂) ∈ (k₁, v₁) :: t₁ := lookupKey_some_mem e2
        rcases List.mem_cons.mp m1 with hm1 | hm1
        · exact hne (congrArg Prod.fst hm1)
        · rcases List.mem_cons.mp m2 with hm2 | hm2
          · exact hne (congrArg Prod.fst hm2).symm
          · have l1 : strLtB k₂ k₁ = true := sortedB_head_lt h2 _ hm1
            have l2 : strLtB k₁ k₂ = true := sortedB_head_lt h1 _ hm2
            have := strLtB_trans l1 l2
            rw [strLtB_irrefl] at this
            exact Bool.false_ne_true this
      subst hkeys
      have hv : v₁ = v₂ := by
        have := h k₁
        rw [lookupKey_cons_self, lookupKey_cons_self] at this
        exact Option.some.inj this
      subst hv
      congr 1
      refine ih (sortedB_tail h1) (sortedB_tail h2) ?_
      intro key
      by_cases hk : key = k₁
      · subst hk
        rw [lookupKey_eq_none_of_lt (sortedB_head_lt h1),
          lookupKey_eq_none_of_lt (sortedB_head_lt h2)]
      · have := h key
        have hne : k₁ ≠ key := fun he => hk he.symm
        simpa [lookupKey, if_neg hne] using this

/-! ### Canonicity helpers -/

theorem canonAllKV_mem {l : List (String × Json)} {kv : String × Json}
    (h : canonAllKV l = true) (hm : kv ∈ l) : canonB kv.2 = true := by
  induction l with
  | nil => simp at hm
  | cons kv' rest ih =>
    simp only [canonAllKV, Bool.and_eq_true] at h
    rcases List.mem_cons.mp hm with h1 | h1
    · subst h1; exact h.1
    · exact ih h.2 h1

theorem canonAllKV_lookup {l : List (String × Json)} {key : String} {v : Json}
    (h : canonAllKV l = true) (hl : lookupKey l key = some v) :
    canonB v = true :=
  canonAllKV_mem h (lookupKey_some_mem hl)

theorem canonB_lookupD {l : List (String × Json)} (key : String)
    (h : canonAllKV l = true) : canonB (lookupD l key) = true := by
  unfold lookupD
  cases hl : lookupKey l key with
  | none => rfl
  | some v => exact canonAllKV_lookup h hl

theorem canonAllKV_insert {l : List (String × Json)} {k : String} {v : Json}
    (h : canonAllKV l = true) (hv : canonB v = true) :
    canonAllKV (insertKey k v l) = true := by
  induction l with
  | nil => simp [insertKey, canonAllKV, hv]
  | cons kv' rest ih =>
    obtain ⟨k', v'⟩ := kv'
    simp only [canonAllKV, Bool.and_eq_true] at h
    simp only [insertKey]
    by_cases h1 : strLtB k k' = true
    · rw [if_pos h1]
      simp [canonAllKV, hv, h.1, h.2]
    · rw [if_neg h1]
      by_cases h2 : k = k'
      · rw [if_pos h2]
        simp [canonAllKV, hv, h.2]
      · rw [if_neg h2]
        simp [canonAllKV, h.1, ih h.2]

theorem canonAllKV_erase {l : List (String × Json)} (k : String)
    (h : canonAllKV l = true) : canonAllKV (eraseKey k l) = true := by
  induction l with
  | nil => rfl
  | cons kv' rest ih =>
    obtain ⟨k', v'⟩ := kv'
    simp only [canonAllKV, Bool.and_eq_true] at h
    by_cases h1 : k' = k
    · have he : eraseKey k ((k', v') :: rest) = eraseKey k rest := by
        simp [eraseKey, List.filter_cons, h1]
      rw [he]
      exact ih h.2
    · have he : eraseKey k ((k', v') :: rest) = (k', v') :: eraseKey k rest := by
        simp [eraseKey, List.filter_cons, h1]
      rw [he]
      simp [canonAllKV, h.1, ih h.2]

/-! ### Characterization of `mergeEntries` -/

theorem lookupKey_cons_ne {k key : String} {v : Json}
    {l : List (String × Json)} (h : k ≠ key) :
    lookupKey ((k, v) :: l) key = lookupKey l key := by
  simp [lookupKey, h]

theorem lookupKey_eq_none_of_not_mem {l : List (String × Json)} {key : String}
    (h : key ∉ l.map Prod.fst) : lookupKey l key = none := by
  induction l with
  | nil => rfl
  | cons kv rest ih =>
    obtain ⟨k, v⟩ := kv
    simp only [List.map_cons, List.mem_cons] at h
    push_neg at h
    rw [lookupKey_cons_ne (fun he => h.1 he.symm)]
    exact ih h.2

theorem lookupD_insert_ne {key k : String} {v : Json}
    {l : List (String × Json)} (h : key ≠ k) :
    lookupD (insertKey k v l) key = lookupD l key := by
  simp [lookupD, lookupKey_insert, h]

theorem lookupD_erase_ne {key k : String} {l : List (String × Json)}
    (h : key ≠ k) : lookupD (eraseKey k l) key = lookupD l key := by
  simp [lookupD, lookupKey_erase, h]

theorem mergeLookupSpec_congr {t₁ t₂ ps : List (String × Json)} {key : String}
    (h1 : lookupD t₁ key = lookupD t₂ key)
    (h2 : lookupKey t₁ key = lookupKey t₂ key) :
    mergeLookupSpec t₁ ps key = mergeLookupSpec t₂ ps key := by
  unfold mergeLookupSpec
  rw [h1, h2]

theorem mergeLookupSpec_cons_ne {acc ps : List (String × Json)}
    {key k₀ : String} {v₀ : Json} (h : k₀ ≠ key) :
    mergeLookupSpec acc ((k₀, v₀) :: ps) key = mergeLookupSpec acc ps key := by
  unfold mergeLookupSpec
  rw [lookupKey_cons_ne h]

theorem mergeEntries_cons_ne {acc rest : List (String × Json)} {k : String}
    {v : Json} (h : v ≠ .null) :
    mergeEntries acc ((k, v) :: rest) =
      mergeEntries (insertKey k (mergePatch (lookupD acc k) v) acc) rest := by
  cases v with
  | null => exact absurd rfl h
  | bool b => rfl
  | num n => rfl
  | str s => rfl
  | arr xs => rfl
  | obj kvs => rfl

theorem mergeEntries_sorted :
    ∀ (ps acc : List (String × Json)), sortedB acc = true →
      sortedB (mergeEntries acc ps) = true := by
  intro ps
  induction ps with
  | nil => intro acc h; exact h
  | cons kv rest ih =>
    obtain ⟨k, v⟩ := kv
    intro acc h
    by_cases hv : v = Json.null
    · subst hv
      exact ih _ (eraseKey_sorted k h)
    · rw [mergeEntries_cons_ne hv]
      exact ih _ (insertKey_sorted _ _ h)

theorem mergeEntries_lookup :
    ∀ (ps acc : List (String × Json)), sortedB acc = true → keysNodup ps →
      ∀ key, lookupKey (mergeEntries acc ps) key = mergeLookupSpec acc ps key := by
  intro ps
  induction ps with
  | nil =>
    intro acc hs hnd key
    simp [mergeEntries, mergeLookupSpec, lookupKey]
  | cons kv rest ih =>
    obtain ⟨k₀, v₀⟩ := kv
    intro acc hs hnd key
    have hnd' : keysNodup rest := by
      simp only [keysNodup, List.map_cons, List.nodup_cons] at hnd ⊢
      exact hnd.2
    have hk₀ : k₀ ∉ rest.map Prod.fst := by
      simp only [keysNodup, List.map_cons, List.nodup_cons] at hnd
      exact hnd.1
    by_cases hv : v₀ = Json.null
    · subst hv
      have step : mergeEntries acc ((k₀, Json.null) :: rest) =
          mergeEntries (eraseKey k₀ acc) rest := rfl
      rw [step, ih _ (eraseKey_sorted _ hs) hnd' key]
      by_cases hk : key = k₀
      · subst hk
        have hrest : lookupKey rest key = none :=
          lookupKey_eq_none_of_not_mem hk₀
        simp [mergeLookupSpec, hrest, lookupKey_erase, lookupKey_cons_self]
      · rw [mergeLookupSpec_cons_ne (fun he => hk he.symm)]
        exact mergeLookupSpec_congr (lookupD_erase_ne hk)
          (by rw [lookupKey_erase, if_neg hk])
    · rw [mergeEntries_cons_ne hv, ih _ (insertKey_sorted _ _ hs) hnd' key]
      by_cases hk : key = k₀
      · subst hk
        have hrest : lookupKey rest key = none :=
          lookupKey_eq_none_of_not_mem hk₀
        have hins : lookupKey (insertKey key (mergePatch (lookupD acc key) v₀) acc)
            key = some (mergePatch (lookupD acc key) v₀) := by
          rw [lookupKey_insert, if_pos rfl]
        cases v₀ with
        | null => exact absurd rfl hv
        | bool b => simp [mergeLookupSpec, hrest, hins, lookupKey_cons_self]
        | num n => simp [mergeLookupSpec, hrest, hins, lookupKey_cons_self]
        | str s => simp [mergeLookupSpec, hrest, hins, lookupKey_cons_self]
        | arr xs => simp [mergeLookupSpec, hrest, hins, lookupKey_cons_self]
        | obj kvs => simp [mergeLookupSpec, hrest, hins, lookupKey_cons_self]
      · rw [mergeLookupSpec_cons_ne (fun he => hk he.symm)]
        exact mergeLookupSpec_congr (lookupD_insert_ne hk)
          (by rw [lookupKey_insert, if_neg hk])

/-! ### Canonicity preservation of the merge -/

theorem canonB_objEntries {t : Json} (h : canonB t = true) :
    sortedB (objEntries t) = true ∧ canonAllKV (objEntries t) = true := by
  cases t with
  | obj kvs =>
    simp only [canonB, Bool.and_eq_true] at h
    exact ⟨h.1, h.2⟩
  | null => exact ⟨rfl, rfl⟩
  | bool b => exact ⟨rfl, rfl⟩
  | num n => exact ⟨rfl, rfl⟩
  | str s => exact ⟨rfl, rfl⟩
  | arr xs => exact ⟨rfl, rfl⟩

theorem canonB_obj_of {kvs : List (String × Json)} (h1 : sortedB kvs = true)
    (h2 : canonAllKV kvs = true) : canonB (Json.obj kvs) = true := by
  simp [canonB, h1, h2]

theorem sizeOf_lookupKey_lt {l : List (String × Json)} {key : String}
    {v : Json} (h : lookupKey l key = some v) : sizeOf v < sizeOf l := by
  have hm := lookupKey_some_mem h
  have h1 := List.sizeOf_lt_of_mem hm
  have h2 : sizeOf (key, v) = 1 + sizeOf key + sizeOf v := by
    simp
  omega

theorem mergeEntries_canon (W : Nat)
    (ihp : ∀ t p, sizeOf p < W → canonB t = true → canonB p = true →
      canonB (mergePatch t p) = true) :
    ∀ ps, sizeOf ps ≤ W → ∀ acc, canonAllKV acc = true →
      canonAllKV ps = true → canonAllKV (mergeEntries acc ps) = true := by
  intro ps
  induction ps with
  | nil => intro _ acc ha _; exact ha
  | cons kv rest ih =>
    obtain ⟨k, v⟩ := kv
    intro hle acc ha hp
    simp only [canonAllKV, Bool.and_eq_true] at hp
    have hsz : sizeOf ((k, v) :: rest) = 1 + (1 + sizeOf k + sizeOf v) + sizeOf rest := by
      simp
    have hrest : sizeOf rest ≤ W := by omega
    by_cases hv : v = Json.null
    · subst hv
      exact ih hrest _ (canonAllKV_erase _ ha) hp.2
    · rw [mergeEntries_cons_ne hv]
      refine ih hrest _ (canonAllKV_insert ha ?_) hp.2
      refine ihp _ _ (by omega) (canonB_lookupD _ ha) hp.1

theorem mergePatch_canon : ∀ (t p : Json), canonB t = true → canonB p = true →
    canonB (mergePatch t p) = true := by
  have main : ∀ W p t, sizeOf p ≤ W → canonB t = true → canonB p = true →
      canonB (mergePatch t p) = true := by
    intro W
    induction W using Nat.strong_induction_on with
    | _ W ihW =>
      intro p t hle ht hp
      cases p with
      | obj pObj =>
        have hse := canonB_objEntries ht
        have hsorted := mergeEntries_sorted pObj (objEntries t) hse.1
        have hszo : sizeOf (Json.obj pObj) = 1 + sizeOf pObj := by simp
        have hpkv : canonAllKV pObj = true := by
          simp only [canonB, Bool.and_eq_true] at hp
          exact hp.2
        have hc : canonAllKV (mergeEntries (objEntries t) pObj) = true := by
          refine mergeEntries_canon (sizeOf pObj)
            (fun t' p' hlt ht' hp' =>
              ihW (sizeOf p') (by omega) p' t' le_rfl ht' hp')
            pObj le_rfl (objEntries t) hse.2 hpkv
        exact canonB_obj_of hsorted hc
      | null => exact hp
      | bool b => exact hp
      | num n => exact hp
      | str s => exact hp
      | arr xs => exact hp
  exact fun t p ht hp => main (sizeOf p) p t le_rfl ht hp

/-! ### Iteration-order independence of the merge loop -/

theorem mergeEntries_cons_step (acc rest : List (String × Json))
    (kv : String × Json) :
    mergeEntries acc (kv :: rest) = mergeEntries (mergeStep acc kv) rest := by
  obtain ⟨k, v⟩ := kv
  cases v with
  | null => rfl
  | bool b => rfl
  | num n => rfl
  | str s => rfl
  | arr xs => rfl
  | obj kvs => rfl

theorem mergeStep_sorted {acc : List (String × Json)} (kv : String × Json)
    (h : sortedB acc = true) : sortedB (mergeStep acc kv) = true := by
  obtain ⟨k, v⟩ := kv
  cases v with
  | null => exact eraseKey_sorted _ h
  | bool b => exact insertKey_sorted _ _ h
  | num n => exact insertKey_sorted _ _ h
  | str s => exact insertKey_sorted _ _ h
  | arr xs => exact insertKey_sorted _ _ h
  | obj kvs => exact insertKey_sorted _ _ h

theorem lookupKey_mergeStep_ne {acc : List (String × Json)}
    {k key : String} {v : Json} (h : key ≠ k) :
    lookupKey (mergeStep acc (k, v)) key = lookupKey acc key := by
  cases v with
  | null => rw [show mergeStep acc (k, Json.null) = eraseKey k acc from rfl,
      lookupKey_erase, if_neg h]
  | bool b => rw [show mergeStep acc (k, Json.bool b) = insertKey k
      (mergePatch (lookupD acc k) (Json.bool b)) acc from rfl,
      lookupKey_insert, if_neg h]
  | num n => rw [show mergeStep acc (k, Json.num n) = insertKey k
      (mergePatch (lookupD acc k) (Json.num n)) acc from rfl,
      lookupKey_insert, if_neg h]
  | str s => rw [show mergeStep acc (k, Json.str s) = insertKey k
      (mergePatch (lookupD acc k) (Json.str s)) acc from rfl,
      lookupKey_insert, if_neg h]
  | arr xs => rw [show mergeStep acc (k, Json.arr xs) = insertKey k
      (mergePatch (lookupD acc k) (Json.arr xs)) acc from rfl,
      lookupKey_insert, if_neg h]
  | obj kvs => rw [show mergeStep acc (k, Json.obj kvs) = insertKey k
      (mergePatch (lookupD acc k) (Json.obj kvs)) acc from rfl,
      lookupKey_insert, if_neg h]

theorem lookupD_mergeStep_ne {acc : List (String × Json)}
    {k key : String} {v : Json} (h : key ≠ k) :
    lookupD (mergeStep acc (k, v)) key = lookupD acc key := by
  unfold lookupD
  rw [lookupKey_mergeStep_ne h]

theorem lookupKey_mergeStep_self (acc : List (String × Json))
    (k : String) (v : Json) :
    lookupKey (mergeStep acc (k, v)) k =
      match v with
      | .null => none
      | v => some (mergePatch (lookupD acc k) v) := by
  cases v with
  | null => rw [show mergeStep acc (k, Json.null) = eraseKey k acc from rfl,
      lookupKey_erase, if_pos rfl]
  | bool b => rw [show mergeStep acc (k, Json.bool b) = insertKey k
      (mergePatch (lookupD acc k) (Json.bool b)) acc from rfl,
      lookupKey_insert, if_pos rfl]
  | num n => rw [show mergeStep acc (k, Json.num n) = insertKey k
      (mergePatch (lookupD acc k) (Json.num n)) acc from rfl,
      lookupKey_insert, if_pos rfl]
  | str s => rw [show mergeStep acc (k, Json.str s) = insertKey k
      (mergePatch (lookupD acc k) (Json.str s)) acc from rfl,
      lookupKey_insert, if_pos rfl]
  | arr xs => rw [show mergeStep acc (k, Json.arr xs) = insertKey k
      (mergePatch (lookupD acc k) (Json.arr xs)) acc from rfl,
      lookupKey_insert, if_pos rfl]
  | obj kvs => rw [show mergeStep acc (k, Json.obj kvs) = insertKey k
      (mergePatch (lookupD acc k) (Json.obj kvs)) acc from rfl,
      lookupKey_insert, if_pos rfl]

theorem mergeStep_comm {acc : List (String × Json)} {k₁ k₂ : String}
    {v₁ v₂ : Json} (hne : k₁ ≠ k₂) (hs : sortedB acc = true) :
    mergeStep (mergeStep acc (k₁, v₁)) (k₂, v₂) =
      mergeStep (mergeStep acc (k₂, v₂)) (k₁, v₁) := by
  refine sorted_ext (mergeStep_sorted _ (mergeStep_sorted _ hs))
    (mergeStep_sorted _ (mergeStep_sorted _ hs)) ?_
  intro key
  by_cases h1 : key = k₁
  · subst h1
    rw [lookupKey_mergeStep_ne hne, lookupKey_mergeStep_self,
      lookupKey_mergeStep_self, lookupD_mergeStep_ne hne]
  · by_cases h2 : key = k₂
    · subst h2
      rw [lookupKey_mergeStep_self, lookupKey_mergeStep_ne (fun he => hne he.symm),
        lookupKey_mergeStep_self, lookupD_mergeStep_ne (fun he => hne he.symm)]
    · rw [lookupKey_mergeStep_ne h2, lookupKey_mergeStep_ne h1,
        lookupKey_mergeStep_ne h1, lookupKey_mergeStep_ne h2]

theorem mergeLookupSpec_some_null {tgt ps : List (String × Json)} {key : String}
    (hpk : lookupKey ps key = some .null) : mergeLookupSpec tgt ps key = none := by
  unfold mergeLookupSpec
  rw [hpk]

theorem mergeLookupSpec_some_ne {tgt ps : List (String × Json)} {key : String}
    {v : Json} (hpk : lookupKey ps key = some v) (hv : v ≠ .null) :
    mergeLookupSpec tgt ps key = some (mergePatch (lookupD tgt key) v) := by
  unfold mergeLookupSpec
  rw [hpk]
  cases v with
  | null => exact absurd rfl hv
  | bool b => rfl
  | num n => rfl
  | str s => rfl
  | arr xs => rfl
  | obj kvs => rfl

theorem mergeLookupSpec_none {tgt ps : List (String × Json)} {key : String}
    (hpk : lookupKey ps key = none) :
    mergeLookupSpec tgt ps key = lookupKey tgt key := by
  unfold mergeLookupSpec
  rw [hpk]

theorem mergeEntries_perm {p₁ p₂ : List (String × Json)} (hperm : p₁.Perm p₂) :
    keysNodup p₁ → ∀ acc, sortedB acc = true →
      mergeEntries acc p₁ = mergeEntries acc p₂ := by
  induction hperm with
  | nil => intro _ acc _; rfl
  | cons x h ih =>
    intro hnd acc hs
    rw [mergeEntries_cons_step, mergeEntries_cons_step]
    refine ih ?_ _ (mergeStep_sorted _ hs)
    simp only [keysNodup, List.map_cons, List.nodup_cons] at hnd
    exact hnd.2
  | swap x y l =>
    intro hnd acc hs
    obtain ⟨k₁, v₁⟩ := x
    obtain ⟨k₂, v₂⟩ := y
    have hne : k₂ ≠ k₁ := by
      simp only [keysNodup, List.map_cons, List.nodup_cons, List.mem_cons] at hnd
      exact fun he => hnd.1 (Or.inl he)
    rw [mergeEntries_cons_step, mergeEntries_cons_step,
      mergeEntries_cons_step, mergeEntries_cons_step,
      mergeStep_comm hne hs]
  | trans h₁ h₂ ih₁ ih₂ =>
    intro hnd acc hs
    rw [ih₁ hnd acc hs]
    refine ih₂ ?_ acc hs
    unfold keysNodup at hnd ⊢
    exact ((h₁.map Prod.fst).nodup_iff).mp hnd

/-! ### Idempotence of the merge -/

theorem mergePatch_idem : ∀ (t p : Json), canonB t = true → canonB p = true →
    mergePatch (mergePatch t p) p = mergePatch t p := by
  have main : ∀ W p t, sizeOf p ≤ W → canonB t = true → canonB p = true →
      mergePatch (mergePatch t p) p = mergePatch t p := by
    intro W
    induction W using Nat.strong_induction_on with
    | _ W ihW =>
      intro p t hle ht hp
      cases p with
      | obj pObj =>
        have hse := canonB_objEntries ht
        have hpp := canonB_objEntries hp
        have hnd : keysNodup pObj := sortedB_keysNodup (by
          simpa [objEntries] using hpp.1)
        have hpkv : canonAllKV pObj = true := by
          simpa [objEntries] using hpp.2
        have hs₁ : sortedB (mergeEntries (objEntries t) pObj) = true :=
          mergeEntries_sorted _ _ hse.1
        have hszo : sizeOf (Json.obj pObj) = 1 + sizeOf pObj := by simp
        show Json.obj (mergeEntries (mergeEntries (objEntries t) pObj) pObj) =
          Json.obj (mergeEntries (objEntries t) pObj)
        congr 1
        refine sorted_ext (mergeEntries_sorted _ _ hs₁) hs₁ ?_
        intro key
        rw [mergeEntries_lookup pObj _ hs₁ hnd key]
        have hR := mergeEntries_lookup pObj (objEntries t) hse.1 hnd key
        cases hpk : lookupKey pObj key with
        | none =>
          rw [mergeLookupSpec_none hpk] at hR ⊢
        | some v =>
          by_cases hv : v = Json.null
          · subst hv
            rw [mergeLookupSpec_some_null hpk] at hR ⊢
            exact hR.symm
          · rw [mergeLookupSpec_some_ne hpk hv] at hR ⊢
            have hD : lookupD (mergeEntries (objEntries t) pObj) key =
                mergePatch (lookupD (objEntries t) key) v := by
              simp [lookupD, hR]
            rw [hR, hD]
            have hszv : sizeOf v < sizeOf pObj := by
              have h1 := sizeOf_lookupKey_lt hpk
              omega
            congr 1
            exact ihW (sizeOf v) (by omega) v _ le_rfl
              (canonB_lookupD _ hse.2) (canonAllKV_lookup hpkv hpk)
      | null => rfl
      | bool b => rfl
      | num n => rfl
      | str s => rfl
      | arr xs => rfl
  exact fun t p ht hp => main (sizeOf p) p t le_rfl ht hp

/-! ### The serializer parses back: digit-level lemmas -/

theorem digitChar_val {d : Nat} (h : d < 10) :
    (digitChar d).val.toNat = 48 + d := by
  interval_cases d <;> decide

theorem isDigitB_digitChar {d : Nat} (h : d < 10) :
    isDigitB (digitChar d) = true := by
  simp only [isDigitB, digitChar_val h, Bool.and_eq_true, decide_eq_true_eq]
  omega

theorem natCharsAux_spec : ∀ fuel n, n < fuel →
    natCharsAux fuel n ≠ [] ∧ ∀ c ∈ natCharsAux fuel n, isDigitB c = true := by
  intro fuel
  induction fuel with
  | zero => intro n h; exact absurd h (Nat.not_lt_zero n)
  | succ f ih =>
    intro n h
    by_cases h10 : n < 10
    · refine ⟨by simp [natCharsAux, h10], ?_⟩
      intro c hc
      simp [natCharsAux, h10] at hc
      subst hc
      exact isDigitB_digitChar h10
    · have hrec := ih (n / 10) (by omega)
      refine ⟨by simp [natCharsAux, h10], ?_⟩
      intro c hc
      simp only [natCharsAux, if_neg h10, List.mem_append, List.mem_singleton] at hc
      rcases hc with hc | hc
      · exact hrec.2 c hc
      · subst hc
        exact isDigitB_digitChar (Nat.mod_lt _ (by omega))

theorem natCharsAux_foldl : ∀ fuel n, n < fuel → ∀ a,
    (natCharsAux fuel n).foldl (fun a c => 10 * a + (c.val.toNat - 48)) a =
      a * 10 ^ (natCharsAux fuel n).length + n := by
  intro fuel
  induction fuel with
  | zero => intro n h; exact absurd h (Nat.not_lt_zero n)
  | succ f ih =>
    intro n h a
    by_cases h10 : n < 10
    · simp [natCharsAux, h10, digitChar_val h10]
      omega
    · have hrec := ih (n / 10) (by omega)
      simp only [natCharsAux, if_neg h10, List.foldl_append, List.length_append,
        List.foldl_cons, List.foldl_nil, List.length_cons, List.length_nil]
      rw [hrec a]
      rw [digitChar_val (Nat.mod_lt _ (by omega))]
      have hpow : 10 ^ (0 + 1) = 10 := by norm_num
      have hp2 : (10 : Nat) ^ ((natCharsAux f (n / 10)).length + (0 + 1)) =
          10 ^ (natCharsAux f (n / 10)).length * 10 := by
        rw [pow_add, hpow]
      rw [hp2]
      rw [show a * (10 ^ (natCharsAux f (n / 10)).length * 10) =
        a * 10 ^ (natCharsAux f (n / 10)).length * 10 from by ring]
      generalize a * 10 ^ (natCharsAux f (n / 10)).length = X
      omega

theorem takeWhile_append_all {p : Char → Bool} :
    ∀ {l rest : List Char}, (∀ c ∈ l, p c = true) →
      (∀ c, rest.head? = some c → p c = false) →
      (l ++ rest).takeWhile p = l ∧ (l ++ rest).dropWhile p = rest := by
  intro l
  induction l with
  | nil =>
    intro rest _ hr
    cases rest with
    | nil => exact ⟨rfl, rfl⟩
    | cons c r' =>
      have := hr c rfl
      simp [List.takeWhile_cons, List.dropWhile_cons, this]
  | cons a l' ih =>
    intro rest hl hr
    have ha : p a = true := hl a (by simp)
    have hrec := ih (fun c hc => hl c (by simp [hc])) hr
    simp [List.takeWhile_cons, List.dropWhile_cons, ha, hrec.1, hrec.2]

theorem parseNatChars_natChars (n : Nat) (rest : List Char)
    (h : headNotDigit rest) :
    parseNatChars (natChars n ++ rest) = some (n, rest) := by
  have hspec := natCharsAux_spec (n + 1) n (by omega)
  have hfold := natCharsAux_foldl (n + 1) n (by omega) 0
  have htk := takeWhile_append_all (p := isDigitB) hspec.2 h
  unfold parseNatChars
  rw [show natChars n = natCharsAux (n + 1) n from rfl]
  rw [htk.1, htk.2]
  have hne : (natCharsAux (n + 1) n).isEmpty = false := by
    cases hl : natCharsAux (n + 1) n with
    | nil => exact absurd hl hspec.1
    | cons c cs => rfl
  simp only [hne, Bool.false_eq_true, if_false]
  rw [hfold]
  simp

theorem parseStrChars_quote : ∀ (s : List Char) (fuel : Nat)
    (rest : List Char), (quoteChars s).length < fuel →
    parseStrChars fuel (quoteChars s ++ ('"' :: rest)) = some (s, rest) := by
  intro s
  induction s with
  | nil =>
    intro fuel rest hf
    cases fuel with
    | zero => exact absurd hf (by simp)
    | succ f => rfl
  | cons c cs ih =>
    intro fuel rest hf
    by_cases hc : c = '"' ∨ c = '\\'
    · rw [show quoteChars (c :: cs) = '\\' :: c :: quoteChars cs from by
        simp [quoteChars, hc]] at hf ⊢
      cases fuel with
      | zero => exact absurd hf (by simp)
      | succ f =>
        simp only [List.cons_append]
        rw [show parseStrChars (f + 1)
            ('\\' :: c :: (quoteChars cs ++ '"' :: rest)) =
          (match parseStrChars f (quoteChars cs ++ '"' :: rest) with
            | none => none
            | some (s, r) => some (c :: s, r)) from rfl]
        rw [ih f rest (by simp at hf; omega)]
    · push_neg at hc
      rw [show quoteChars (c :: cs) = c :: quoteChars cs from by
        simp [quoteChars, hc.1, hc.2]] at hf ⊢
      cases fuel with
      | zero => exact absurd hf (by simp)
      | succ f =>
        simp only [List.cons_append, parseStrChars]
        rw [if_neg hc.1, if_neg hc.2]
        simp only [List.append_eq]
        rw [ih f rest (by simp at hf; omega)]

theorem strMk_data (s : String) : String.mk s.data = s := by
  cases s
  rfl

/-! ### The serializer parses back -/

theorem sizeOf_json_pos (v : Json) : 1 ≤ sizeOf v := by
  cases v <;> simp_arith

theorem sizeOf_jlist_pos (l : List Json) : 1 ≤ sizeOf l := by
  cases l <;> simp_arith

theorem sizeOf_kvlist_pos (l : List (String × Json)) : 1 ≤ sizeOf l := by
  cases l <;> simp_arith

theorem headNotDigit_nil : headNotDigit [] := by
  intro c h
  simp at h

theorem headNotDigit_cons {c : Char} {l : List Char}
    (h : isDigitB c = false) : headNotDigit (c :: l) := by
  intro c' hc'
  simp at hc'
  subst hc'
  exact h

theorem parseV_digitHead (f : Nat) (c : Char) (cs : List Char)
    (h : isDigitB c = true) :
    parseV (f + 1) (c :: cs) =
      (match parseNatChars (c :: cs) with
        | some (k, r) => some (.num (k : Int), r)
        | none => none) := by
  have h1 : c ≠ 'n' := fun he => by rw [he] at h; exact absurd h (by decide)
  have h2 : c ≠ 't' := fun he => by rw [he] at h; exact absurd h (by decide)
  have h3 : c ≠ 'f' := fun he => by rw [he] at h; exact absurd h (by decide)
  have h4 : c ≠ '"' := fun he => by rw [he] at h; exact absurd h (by decide)
  have h5 : c ≠ '[' := fun he => by rw [he] at h; exact absurd h (by decide)
  have h6 : c ≠ lbrace := fun he => by rw [he] at h; exact absurd h (by decide)
  have h7 : c ≠ '-' := fun he => by rw [he] at h; exact absurd h (by decide)
  simp only [parseV]
  rw [if_neg h1, if_neg h2, if_neg h3, if_neg h4, if_neg h5, if_neg h6,
    if_neg h7, if_pos h]

theorem jChars_cons (v : Json) : ∃ c cs, jChars v = c :: cs ∧ c ≠ ']' := by
  cases v with
  | null => exact ⟨'n', _, rfl, by decide⟩
  | bool b =>
    cases b with
    | false => exact ⟨'f', _, rfl, by decide⟩
    | true => exact ⟨'t', _, rfl, by decide⟩
  | num n =>
    cases n with
    | ofNat m =>
      have hspec := natCharsAux_spec (m + 1) m (by omega)
      obtain ⟨c, cs, hc⟩ := List.exists_cons_of_ne_nil hspec.1
      refine ⟨c, cs, hc, ?_⟩
      have hd : isDigitB c = true := hspec.2 c (by rw [hc]; simp)
      intro he
      rw [he] at hd
      exact absurd hd (by decide)
    | negSucc m => exact ⟨'-', _, rfl, by decide⟩
  | str s => exact ⟨'"', _, rfl, by decide⟩
  | arr xs => exact ⟨'[', _, rfl, by decide⟩
  | obj kvs => exact ⟨lbrace, _, rfl, by decide⟩

theorem parseRT : ∀ fuel : Nat,
    (∀ v rest, sizeOf v ≤ fuel → headNotDigit rest →
      parseV fuel (jChars v ++ rest) = some (v, rest)) ∧
    (∀ xs rest, sizeOf xs ≤ fuel →
      parseElems fuel (jCharsArr xs ++ rest) = some (.arr xs, rest)) ∧
    (∀ kvs rest, sizeOf kvs ≤ fuel →
      parseMems fuel (jCharsObj kvs ++ rest) = some (.obj kvs, rest)) := by
  intro fuel
  induction fuel with
  | zero =>
    refine ⟨?_, ?_, ?_⟩
    · intro v rest hsz _
      have := sizeOf_json_pos v
      omega
    · intro xs rest hsz
      have := sizeOf_jlist_pos xs
      omega
    · intro kvs rest hsz
      have := sizeOf_kvlist_pos kvs
      omega
  | succ f ih =>
    obtain ⟨ihV, ihE, ihM⟩ := ih
    refine ⟨?_, ?_, ?_⟩
    · intro v rest hsz hrest
      cases v with
      | null => rfl
      | bool b => cases b <;> rfl
      | str s =>
        rw [show jChars (.str s) ++ rest =
          '"' :: (quoteChars s.data ++ ('"' :: rest)) from by simp [jChars]]
        rw [show parseV (f + 1) ('"' :: (quoteChars s.data ++ ('"' :: rest))) =
          (match parseStrChars (quoteChars s.data ++ ('"' :: rest)).length
              (quoteChars s.data ++ ('"' :: rest)) with
            | some (s2, r) => some (.str (String.mk s2), r)
            | none => none) from rfl]
        rw [parseStrChars_quote s.data _ rest
          (by simp only [List.length_append, List.length_cons]; omega)]
      | num n =>
        cases n with
        | ofNat m =>
          have hspec := natCharsAux_spec (m + 1) m (by omega)
          obtain ⟨c, cs2, hc⟩ := List.exists_cons_of_ne_nil hspec.1
          have hdig : isDigitB c = true := hspec.2 c (by rw [hc]; simp)
          rw [show jChars (.num (.ofNat m)) = natCharsAux (m + 1) m from rfl,
            hc, List.cons_append]
          rw [parseV_digitHead f c _ hdig]
          rw [← List.cons_append, ← hc]
          rw [show natCharsAux (m + 1) m = natChars m from rfl]
          rw [parseNatChars_natChars m rest hrest]
          rfl
        | negSucc m =>
          rw [show jChars (.num (.negSucc m)) ++ rest =
            '-' :: (natChars (m + 1) ++ rest) from by simp [jChars, intChars]]
          rw [show parseV (f + 1) ('-' :: (natChars (m + 1) ++ rest)) =
            (match parseNatChars (natChars (m + 1) ++ rest) with
              | some (k, r) => some (.num (-(k : Int)), r)
              | none => none) from rfl]
          rw [parseNatChars_natChars (m + 1) rest hrest]
          rfl
      | arr xs =>
        rw [show jChars (.arr xs) ++ rest = '[' :: (jCharsArr xs ++ rest) from by
          simp [jChars]]
        rw [show parseV (f + 1) ('[' :: (jCharsArr xs ++ rest)) =
          parseElems f (jCharsArr xs ++ rest) from rfl]
        refine ihE xs rest ?_
        have h1 : sizeOf (Json.arr xs) = 1 + sizeOf xs := by simp
        omega
      | obj kvs =>
        rw [show jChars (.obj kvs) ++ rest = lbrace :: (jCharsObj kvs ++ rest)
          from by simp [jChars]]
        rw [show parseV (f + 1) (lbrace :: (jCharsObj kvs ++ rest)) =
          parseMems f (jCharsObj kvs ++ rest) from rfl]
        refine ihM kvs rest ?_
        have h1 : sizeOf (Json.obj kvs) = 1 + sizeOf kvs := by simp
        omega
    · intro xs rest hsz
      cases xs with
      | nil => rfl
      | cons x xs' =>
        obtain ⟨c, cs2, hc, hne⟩ := jChars_cons x
        cases xs' with
        | nil =>
          rw [show jCharsArr [x] ++ rest = c :: (cs2 ++ (']' :: rest)) from by
            rw [show jCharsArr [x] = jChars x ++ [']'] from rfl, hc]
            simp]
          have hV : parseV f (c :: (cs2 ++ (']' :: rest))) =
              some (x, ']' :: rest) := by
            rw [← List.cons_append, ← hc]
            refine ihV x (']' :: rest) ?_ (headNotDigit_cons (by decide))
            have h1 : sizeOf [x] = 1 + sizeOf x + 1 := by simp
            omega
          simp only [parseElems]
          rw [if_neg hne]
          simp [hV]
        | cons y ys =>
          rw [show jCharsArr (x :: y :: ys) ++ rest =
              c :: (cs2 ++ (',' :: (jCharsArr (y :: ys) ++ rest))) from by
            rw [show jCharsArr (x :: y :: ys) =
              jChars x ++ (',' :: jCharsArr (y :: ys)) from rfl, hc]
            simp]
          have h1 : sizeOf (x :: y :: ys) = 1 + sizeOf x + sizeOf (y :: ys) := by
            simp
          have hV : parseV f (c :: (cs2 ++ (',' :: (jCharsArr (y :: ys) ++ rest)))) =
              some (x, ',' :: (jCharsArr (y :: ys) ++ rest)) := by
            rw [← List.cons_append, ← hc]
            refine ihV x _ ?_ (headNotDigit_cons (by decide))
            have h2 := sizeOf_jlist_pos (y :: ys)
            omega
          have hE : parseElems f (jCharsArr (y :: ys) ++ rest) =
              some (.arr (y :: ys), rest) := by
            refine ihE (y :: ys) rest ?_
            have h2 := sizeOf_json_pos x
            omega
          simp only [parseElems]
          rw [if_neg hne]
          simp [hV, hE]
    · intro kvs rest hsz
      cases kvs with
      | nil => rfl
      | cons kv kvs2 =>
        obtain ⟨k, v⟩ := kv
        have hq : ¬ ('"' : Char) = rbrace := by decide
        cases kvs2 with
        | nil =>
          rw [show jCharsObj [(k, v)] ++ rest =
              '"' :: (quoteChars k.data ++
                ('"' :: (':' :: (jChars v ++ (rbrace :: rest))))) from by
            rw [show jCharsObj [(k, v)] =
              '"' :: ((quoteChars k.data ++ ('"' :: ':' :: jChars v)) ++ [rbrace])
              from rfl]
            simp]
          have hS := parseStrChars_quote k.data
            (quoteChars k.data ++
              ('"' :: (':' :: (jChars v ++ (rbrace :: rest))))).length
            (':' :: (jChars v ++ (rbrace :: rest)))
            (by simp only [List.length_append, List.length_cons]; omega)
          have hV : parseV f (jChars v ++ (rbrace :: rest)) =
              some (v, rbrace :: rest) := by
            refine ihV v (rbrace :: rest) ?_ (headNotDigit_cons (by decide))
            have h1 : sizeOf [(k, v)] = 1 + (1 + sizeOf k + sizeOf v) + 1 := by
              simp
            omega
          simp only [parseMems]
          rw [if_neg hq, hS]
          have hc1 : ¬ rbrace = ',' := by decide
          simp [hV, strMk_data, hc1]
        | cons kv2 rest2 =>
          obtain ⟨k2, v2⟩ := kv2
          rw [show jCharsObj ((k, v) :: (k2, v2) :: rest2) ++ rest =
              '"' :: (quoteChars k.data ++
                ('"' :: (':' :: (jChars v ++
                  (',' :: (jCharsObj ((k2, v2) :: rest2) ++ rest)))))) from by
            rw [show jCharsObj ((k, v) :: (k2, v2) :: rest2) =
              '"' :: ((quoteChars k.data ++ ('"' :: ':' :: jChars v)) ++
                (',' :: jCharsObj ((k2, v2) :: rest2))) from rfl]
            simp]
          have hS := parseStrChars_quote k.data
            (quoteChars k.data ++
              ('"' :: (':' :: (jChars v ++
                (',' :: (jCharsObj ((k2, v2) :: rest2) ++ rest)))))).length
            (':' :: (jChars v ++
              (',' :: (jCharsObj ((k2, v2) :: rest2) ++ rest))))
            (by simp only [List.length_append, List.length_cons]; omega)
          have h1 : sizeOf ((k, v) :: (k2, v2) :: rest2) =
              1 + (1 + sizeOf k + sizeOf v) + sizeOf ((k2, v2) :: rest2) := by
            simp
          have hV : parseV f (jChars v ++
              (',' :: (jCharsObj ((k2, v2) :: rest2) ++ rest))) =
              some (v, ',' :: (jCharsObj ((k2, v2) :: rest2) ++ rest)) := by
            refine ihV v _ ?_ (headNotDigit_cons (by decide))
            have h2 := sizeOf_kvlist_pos ((k2, v2) :: rest2)
            omega
          have hM : parseMems f (jCharsObj ((k2, v2) :: rest2) ++ rest) =
              some (.obj ((k2, v2) :: rest2), rest) := by
            refine ihM ((k2, v2) :: rest2) rest ?_
            omega
          simp only [parseMems]
          rw [if_neg hq, hS]
          simp [hV, hM, strMk_data]

/-! ### Injectivity of the serialized form -/

theorem jChars_inj {a b : Json} (h : jChars a = jChars b) : a = b := by
  have h1 := (parseRT (sizeOf a + sizeOf b)).1 a [] (by omega) headNotDigit_nil
  have h2 := (parseRT (sizeOf a + sizeOf b)).1 b [] (by omega) headNotDigit_nil
  rw [List.append_nil] at h1 h2
  rw [h] at h1
  have h3 := h1.symm.trans h2
  exact (Prod.ext_iff.mp (Option.some.inj h3)).1

theorem marshal_inj {a b : Json} (h : marshal a = marshal b) : a = b := by
  refine jChars_inj ?_
  have := congrArg String.data h
  exact this

theorem deepEqual_iff (a b : Json) : deepEqual a b = true ↔ a = b := by
  unfold deepEqual
  constructor
  · intro h
    exact marshal_inj (eq_of_beq h)
  · intro h
    subst h
    simp

/-! ### Characterization of `generatePatch` -/

theorem genAdds_cons (sObj rest : List (String × Json)) (k : String)
    (tv : Json) :
    genAdds sObj ((k, tv) :: rest) =
      (match genValueSpec sObj k tv with
       | some pv => insertKey k pv (genAdds sObj rest)
       | none => genAdds sObj rest) := by
  cases hks : lookupKey sObj k with
  | none => simp [genAdds, genValueSpec, hks]
  | some sv =>
    by_cases h1 : (isObject sv && isObject tv) = true
    · by_cases h2 : (objEntries (generatePatch sv tv)).isEmpty = true
      · simp [genAdds, genValueSpec, hks, h1, h2]
      · simp [genAdds, genValueSpec, hks, h1, h2]
    · by_cases h3 : deepEqual sv tv = true
      · simp [genAdds, genValueSpec, hks, h1, h3]
      · simp [genAdds, genValueSpec, hks, h1, h3]

theorem genAdds_sorted (sObj : List (String × Json)) :
    ∀ tl, sortedB (genAdds sObj tl) = true := by
  intro tl
  induction tl with
  | nil => rfl
  | cons kv rest ih =>
    obtain ⟨k, tv⟩ := kv
    rw [genAdds_cons]
    cases genValueSpec sObj k tv with
    | none => exact ih
    | some pv => exact insertKey_sorted _ _ ih

theorem genAdds_lookup_none (sObj : List (String × Json))
    {tl : List (String × Json)} {key : String}
    (h : lookupKey tl key = none) :
    lookupKey (genAdds sObj tl) key = none := by
  induction tl with
  | nil => rfl
  | cons kv rest ih =>
    obtain ⟨k, tv⟩ := kv
    by_cases hk : k = key
    · subst hk
      rw [lookupKey_cons_self] at h
      simp at h
    · rw [lookupKey_cons_ne hk] at h
      rw [genAdds_cons]
      cases genValueSpec sObj k tv with
      | none => exact ih h
      | some pv =>
        rw [lookupKey_insert, if_neg (fun he => hk he.symm)]
        exact ih h

theorem genAdds_lookup_some (sObj : List (String × Json))
    {tl : List (String × Json)} {key : String} {tv : Json}
    (hnd : keysNodup tl) (h : lookupKey tl key = some tv) :
    lookupKey (genAdds sObj tl) key = genValueSpec sObj key tv := by
  induction tl with
  | nil => simp [lookupKey] at h
  | cons kv rest ih =>
    obtain ⟨k0, tv0⟩ := kv
    have hnd2 : keysNodup rest := by
      simp only [keysNodup, List.map_cons, List.nodup_cons] at hnd
      exact hnd.2
    have hk0 : k0 ∉ rest.map Prod.fst := by
      simp only [keysNodup, List.map_cons, List.nodup_cons] at hnd
      exact hnd.1
    by_cases hk : k0 = key
    · subst hk
      rw [lookupKey_cons_self] at h
      have htv : tv0 = tv := Option.some.inj h
      subst htv
      rw [genAdds_cons]
      have hrest : lookupKey rest k0 = none :=
        lookupKey_eq_none_of_not_mem hk0
      cases hsp : genValueSpec sObj k0 tv0 with
      | some pv => rw [lookupKey_insert, if_pos rfl]
      | none => exact genAdds_lookup_none sObj hrest
    · rw [lookupKey_cons_ne hk] at h
      rw [genAdds_cons]
      cases hsp : genValueSpec sObj k0 tv0 with
      | some pv =>
        rw [lookupKey_insert, if_neg (fun he => hk he.symm)]
        exact ih hnd2 h
      | none => exact ih hnd2 h

theorem genDels_sorted (tObj : List (String × Json)) :
    ∀ sIter acc, sortedB acc = true →
      sortedB (genDels tObj acc sIter) = true := by
  intro sIter
  induction sIter with
  | nil => intro acc h; exact h
  | cons kv rest ih =>
    obtain ⟨k, v⟩ := kv
    intro acc h
    cases hks : lookupKey tObj k with
    | some w =>
      simp only [genDels, hks]
      exact ih acc h
    | none =>
      simp only [genDels, hks]
      exact ih _ (insertKey_sorted _ _ h)

theorem genDels_lookup (tObj : List (String × Json)) :
    ∀ sIter acc key,
      lookupKey (genDels tObj acc sIter) key =
        if (lookupKey sIter key).isSome = true ∧ lookupKey tObj key = none
        then some Json.null else lookupKey acc key := by
  intro sIter
  induction sIter with
  | nil =>
    intro acc key
    simp [genDels, lookupKey]
  | cons kv rest ih =>
    obtain ⟨k0, v0⟩ := kv
    intro acc key
    cases hks : lookupKey tObj k0 with
    | some w =>
      simp only [genDels, hks]
      rw [ih acc key]
      by_cases hk : k0 = key
      · subst hk
        have c1 : ¬ ((lookupKey rest k0).isSome = true ∧
            lookupKey tObj k0 = none) := by
          rw [hks]
          simp
        have c2 : ¬ ((lookupKey ((k0, v0) :: rest) k0).isSome = true ∧
            lookupKey tObj k0 = none) := by
          rw [hks]
          simp
        rw [if_neg c1, if_neg c2]
      · rw [lookupKey_cons_ne hk]
    | none =>
      simp only [genDels, hks]
      rw [ih (insertKey k0 .null acc) key]
      by_cases hk : k0 = key
      · subst hk
        have c2 : (lookupKey ((k0, v0) :: rest) k0).isSome = true ∧
            lookupKey tObj k0 = none := by
          rw [lookupKey_cons_self, hks]
          simp
        rw [if_pos c2]
        by_cases hc : (lookupKey rest k0).isSome = true ∧
            lookupKey tObj k0 = none
        · rw [if_pos hc]
        · rw [if_neg hc, lookupKey_insert, if_pos rfl]
      · have hne : ¬ (key = k0) := fun he => hk he.symm
        rw [lookupKey_cons_ne hk, lookupKey_insert]
        rw [if_neg hne]

theorem onfKV_cons {k : String} {v : Json} {rest : List (String × Json)}
    (h : onfKV ((k, v) :: rest) = true) :
    v ≠ Json.null ∧ onfB v = true ∧ onfKV rest = true := by
  cases v with
  | null => simp [onfKV] at h
  | bool b =>
    have h2 : onfB (Json.bool b) && onfKV rest = true := by
      simpa [onfKV] using h
    simp only [Bool.and_eq_true] at h2
    exact ⟨by simp, h2.1, by simpa using h2.2⟩
  | num n =>
    have h2 : onfB (Json.num n) && onfKV rest = true := by
      simpa [onfKV] using h
    simp only [Bool.and_eq_true] at h2
    exact ⟨by simp, h2.1, by simpa using h2.2⟩
  | str s =>
    have h2 : onfB (Json.str s) && onfKV rest = true := by
      simpa [onfKV] using h
    simp only [Bool.and_eq_true] at h2
    exact ⟨by simp, h2.1, by simpa using h2.2⟩
  | arr xs =>
    have h2 : onfB (Json.arr xs) && onfKV rest = true := by
      simpa [onfKV] using h
    simp only [Bool.and_eq_true] at h2
    exact ⟨by simp, h2.1, by simpa using h2.2⟩
  | obj kvs =>
    have h2 : onfB (Json.obj kvs) && onfKV rest = true := by
      simpa [onfKV] using h
    simp only [Bool.and_eq_true] at h2
    exact ⟨by simp, h2.1, by simpa using h2.2⟩

theorem onfKV_lookup {l : List (String × Json)} {key : String} {tv : Json}
    (h : onfKV l = true) (hl : lookupKey l key = some tv) :
    tv ≠ Json.null ∧ onfB tv = true := by
  induction l with
  | nil => simp [lookupKey] at hl
  | cons kv rest ih =>
    obtain ⟨k, v⟩ := kv
    have hc := onfKV_cons h
    by_cases hk : k = key
    · subst hk
      rw [lookupKey_cons_self] at hl
      have := Option.some.inj hl
      subst this
      exact ⟨hc.1, hc.2.1⟩
    · rw [lookupKey_cons_ne hk] at hl
      exact ih hc.2.2 hl

theorem mergePatch_nonobj_target {s : Json} (h : isObject s = false)
    (v : Json) : mergePatch s v = mergePatch .null v := by
  cases v with
  | obj kvs =>
    show Json.obj (mergeEntries (objEntries s) kvs) =
      Json.obj (mergeEntries (objEntries Json.null) kvs)
    cases s with
    | obj kvs2 => simp [isObject] at h
    | null => rfl
    | bool b => rfl
    | num n => rfl
    | str s2 => rfl
    | arr xs => rfl
  | null => rfl
  | bool b => rfl
  | num n => rfl
  | str s2 => rfl
  | arr xs => rfl

theorem mergePatch_null_onf : ∀ v, canonB v = true → onfB v = true →
    mergePatch .null v = v := by
  have main : ∀ W v, sizeOf v ≤ W → canonB v = true → onfB v = true →
      mergePatch .null v = v := by
    intro W
    induction W using Nat.strong_induction_on with
    | _ W ihW =>
      intro v hle hc ho
      cases v with
      | obj kvs =>
        have hcc := canonB_objEntries hc
        have hs : sortedB kvs = true := by simpa [objEntries] using hcc.1
        have hkv : canonAllKV kvs = true := by simpa [objEntries] using hcc.2
        have honf : onfKV kvs = true := by simpa [onfB] using ho
        show Json.obj (mergeEntries (objEntries Json.null) kvs) = Json.obj kvs
        congr 1
        refine sorted_ext (mergeEntries_sorted _ _ rfl) hs ?_
        intro key
        rw [show objEntries Json.null = [] from rfl]
        rw [mergeEntries_lookup kvs [] rfl (sortedB_keysNodup hs) key]
        cases hpk : lookupKey kvs key with
        | none =>
          rw [mergeLookupSpec_none hpk]
          rfl
        | some v0 =>
          have hov := onfKV_lookup honf hpk
          rw [mergeLookupSpec_some_ne hpk hov.1]
          have hsz : sizeOf v0 < sizeOf kvs := sizeOf_lookupKey_lt hpk
          have hszo : sizeOf (Json.obj kvs) = 1 + sizeOf kvs := by simp
          congr 1
          exact ihW (sizeOf v0) (by omega) v0 le_rfl
            (canonAllKV_lookup hkv hpk) hov.2
      | null => rfl
      | bool b => rfl
      | num n => rfl
      | str s => rfl
      | arr xs => rfl
  exact fun v hc ho => main (sizeOf v) v le_rfl hc ho

/-! ### The generate/apply roundtrip -/

theorem genValueSpec_src_none {sObj : List (String × Json)} {key : String}
    {tv : Json} (hps : lookupKey sObj key = none) :
    genValueSpec sObj key tv = some tv := by
  unfold genValueSpec
  rw [hps]

theorem genValueSpec_src_some {sObj : List (String × Json)} {key : String}
    {tv sv : Json} (hps : lookupKey sObj key = some sv) :
    genValueSpec sObj key tv =
      (if (isObject sv && isObject tv) = true then
        (if (objEntries (generatePatch sv tv)).isEmpty = true then none
         else some (generatePatch sv tv))
       else if deepEqual sv tv = true then none else some tv) := by
  unfold genValueSpec
  rw [hps]

theorem genPatch_obj_shape {s t : Json} (hs : isObject s = true)
    (ht : isObject t = true) : ∃ e, generatePatch s t = .obj e := by
  cases s with
  | obj sObj =>
    cases t with
    | obj tObj => exact ⟨_, rfl⟩
    | null => simp [isObject] at ht
    | bool b => simp [isObject] at ht
    | num n => simp [isObject] at ht
    | str s2 => simp [isObject] at ht
    | arr xs => simp [isObject] at ht
  | null => simp [isObject] at hs
  | bool b => simp [isObject] at hs
  | num n => simp [isObject] at hs
  | str s2 => simp [isObject] at hs
  | arr xs => simp [isObject] at hs

theorem genRoundtrip :
    ∀ W s t, sizeOf t ≤ W → canonB s = true → canonB t = true →
      isObject s = true → isObject t = true →
      ((generatePatch s t = .obj [] → s = t) ∧
       (onfB t = true → mergePatch s (generatePatch s t) = t)) := by
  intro W
  induction W using Nat.strong_induction_on with
  | _ W ihW =>
    intro s t hle hcs hct hos hot
    cases s with
    | null => simp [isObject] at hos
    | bool b => simp [isObject] at hos
    | num n => simp [isObject] at hos
    | str s2 => simp [isObject] at hos
    | arr xs => simp [isObject] at hos
    | obj sObj =>
    cases t with
    | null => simp [isObject] at hot
    | bool b => simp [isObject] at hot
    | num n => simp [isObject] at hot
    | str s2 => simp [isObject] at hot
    | arr xs => simp [isObject] at hot
    | obj tObj =>
    have hsS : sortedB sObj = true := by
      simpa [objEntries] using (canonB_objEntries hcs).1
    have hsKV : canonAllKV sObj = true := by
      simpa [objEntries] using (canonB_objEntries hcs).2
    have htS : sortedB tObj = true := by
      simpa [objEntries] using (canonB_objEntries hct).1
    have htKV : canonAllKV tObj = true := by
      simpa [objEntries] using (canonB_objEntries hct).2
    have hPs : sortedB (genDels tObj (genAdds sObj tObj) sObj) = true :=
      genDels_sorted _ _ _ (genAdds_sorted _ _)
    have hszo : sizeOf (Json.obj tObj) = 1 + sizeOf tObj := by simp
    constructor
    · intro hempty
      have hP0 : genDels tObj (genAdds sObj tObj) sObj = [] := by
        have := hempty
        injection this
      congr 1
      refine sorted_ext hsS htS ?_
      intro key
      have h1 : lookupKey (genDels tObj (genAdds sObj tObj) sObj) key = none := by
        rw [hP0]
        rfl
      rw [genDels_lookup] at h1
      by_cases hdel : (lookupKey sObj key).isSome = true ∧
          lookupKey tObj key = none
      · rw [if_pos hdel] at h1
        simp at h1
      · rw [if_neg hdel] at h1
        cases hpt : lookupKey tObj key with
        | some tv =>
          rw [genAdds_lookup_some sObj (sortedB_keysNodup htS) hpt] at h1
          cases hps : lookupKey sObj key with
          | none =>
            rw [genValueSpec_src_none hps] at h1
            simp at h1
          | some sv =>
            have hsv : canonB sv = true := canonAllKV_lookup hsKV hps
            have htv : canonB tv = true := canonAllKV_lookup htKV hpt
            have hsztv : sizeOf tv < sizeOf tObj := sizeOf_lookupKey_lt hpt
            by_cases hbo : (isObject sv && isObject tv) = true
            · by_cases hem : (objEntries (generatePatch sv tv)).isEmpty = true
              · have hbo2' : isObject sv = true ∧ isObject tv = true := by
                  simpa using hbo
                obtain ⟨hbo1, hbo2⟩ := hbo2'
                obtain ⟨e, he⟩ := genPatch_obj_shape hbo1 hbo2
                rw [he] at hem
                have he2 : e = [] := by
                  simpa [objEntries, List.isEmpty_iff] using hem
                subst he2
                have hIH := (ihW (sizeOf tv) (by omega) sv tv le_rfl
                  hsv htv hbo1 hbo2).1 he
                rw [hIH]
              · rw [genValueSpec_src_some hps, if_pos hbo, if_neg hem] at h1
                simp at h1
            · by_cases hde : deepEqual sv tv = true
              · rw [(deepEqual_iff sv tv).mp hde]
              · rw [genValueSpec_src_some hps, if_neg hbo, if_neg hde] at h1
                simp at h1
        | none =>
          have h2 : ¬ (lookupKey sObj key).isSome = true :=
            fun hx => hdel ⟨hx, hpt⟩
          have hsn : lookupKey sObj key = none := by
            cases hx : lookupKey sObj key with
            | none => rfl
            | some w => rw [hx] at h2; simp at h2
          rw [hsn]
    · intro honf
      have honfKV : onfKV tObj = true := by simpa [onfB] using honf
      show Json.obj (mergeEntries (objEntries (Json.obj sObj))
        (genDels tObj (genAdds sObj tObj) sObj)) = Json.obj tObj
      congr 1
      rw [show objEntries (Json.obj sObj) = sObj from rfl]
      refine sorted_ext (mergeEntries_sorted _ _ hsS) htS ?_
      intro key
      rw [mergeEntries_lookup _ sObj hsS (sortedB_keysNodup hPs) key]
      by_cases hdel : (lookupKey sObj key).isSome = true ∧
          lookupKey tObj key = none
      · have hpP : lookupKey (genDels tObj (genAdds sObj tObj) sObj) key =
            some .null := by
          rw [genDels_lookup, if_pos hdel]
        rw [mergeLookupSpec_some_null hpP, hdel.2]
      · have hpP0 : lookupKey (genDels tObj (genAdds sObj tObj) sObj) key =
            lookupKey (genAdds sObj tObj) key := by
          rw [genDels_lookup, if_neg hdel]
        cases hpt : lookupKey tObj key with
        | none =>
          have h2 : ¬ (lookupKey sObj key).isSome = true :=
            fun hx => hdel ⟨hx, hpt⟩
          have hsn : lookupKey sObj key = none := by
            cases hx : lookupKey sObj key with
            | none => rfl
            | some w => rw [hx] at h2; simp at h2
          have hpP : lookupKey (genDels tObj (genAdds sObj tObj) sObj) key =
              none := hpP0.trans (genAdds_lookup_none _ hpt)
          rw [mergeLookupSpec_none hpP, hsn]
        | some tv =>
          have hAdd := genAdds_lookup_some sObj (sortedB_keysNodup htS) hpt
          have honf_tv := onfKV_lookup honfKV hpt
          have htv : canonB tv = true := canonAllKV_lookup htKV hpt
          have hsztv : sizeOf tv < sizeOf tObj := sizeOf_lookupKey_lt hpt
          cases hps : lookupKey sObj key with
          | none =>
            have hspec : genValueSpec sObj key tv = some tv :=
              genValueSpec_src_none hps
            have hpP : lookupKey (genDels tObj (genAdds sObj tObj) sObj) key =
                some tv := hpP0.trans (hAdd.trans hspec)
            rw [mergeLookupSpec_some_ne hpP honf_tv.1]
            have hD : lookupD sObj key = Json.null := by simp [lookupD, hps]
            rw [hD, mergePatch_null_onf tv htv honf_tv.2]
          | some sv =>
            have hsv : canonB sv = true := canonAllKV_lookup hsKV hps
            by_cases hbo : (isObject sv && isObject tv) = true
            · have hbo2' : isObject sv = true ∧ isObject tv = true := by
                simpa using hbo
              obtain ⟨hbo1, hbo2⟩ := hbo2'
              by_cases hem : (objEntries (generatePatch sv tv)).isEmpty = true
              · have hspec : genValueSpec sObj key tv = none := by
                  rw [genValueSpec_src_some hps, if_pos hbo, if_pos hem]
                have hpP : lookupKey (genDels tObj (genAdds sObj tObj) sObj)
                    key = none := hpP0.trans (hAdd.trans hspec)
                rw [mergeLookupSpec_none hpP]
                obtain ⟨e, he⟩ := genPatch_obj_shape hbo1 hbo2
                rw [he] at hem
                have he2 : e = [] := by
                  simpa [objEntries, List.isEmpty_iff] using hem
                subst he2
                have hIH := (ihW (sizeOf tv) (by omega) sv tv le_rfl
                  hsv htv hbo1 hbo2).1 he
                rw [hps, hIH]
              · have hspec : genValueSpec sObj key tv =
                    some (generatePatch sv tv) := by
                  rw [genValueSpec_src_some hps, if_pos hbo, if_neg hem]
                have hpP : lookupKey (genDels tObj (genAdds sObj tObj) sObj)
                    key = some (generatePatch sv tv) :=
                  hpP0.trans (hAdd.trans hspec)
                obtain ⟨e, he⟩ := genPatch_obj_shape hbo1 hbo2
                have hnn : generatePatch sv tv ≠ Json.null := by
                  rw [he]
                  simp
                rw [mergeLookupSpec_some_ne hpP hnn]
                have hD : lookupD sObj key = sv := by simp [lookupD, hps]
                rw [hD]
                have hIH := (ihW (sizeOf tv) (by omega) sv tv le_rfl
                  hsv htv hbo1 hbo2).2 honf_tv.2
                rw [hIH]
            · by_cases hde : deepEqual sv tv = true
              · have hst : sv = tv := (deepEqual_iff _ _).mp hde
                have hspec : genValueSpec sObj key tv = none := by
                  rw [genValueSpec_src_some hps, if_neg hbo, if_pos hde]
                have hpP : lookupKey (genDels tObj (genAdds sObj tObj) sObj)
                    key = none := hpP0.trans (hAdd.trans hspec)
                rw [mergeLookupSpec_none hpP, hps, hst]
              · have hspec : genValueSpec sObj key tv = some tv := by
                  rw [genValueSpec_src_some hps, if_neg hbo, if_neg hde]
                have hpP : lookupKey (genDels tObj (genAdds sObj tObj) sObj)
                    key = some tv := hpP0.trans (hAdd.trans hspec)
                rw [mergeLookupSpec_some_ne hpP honf_tv.1]
                have hD : lookupD sObj key = sv := by simp [lookupD, hps]
                rw [hD]
                by_cases hto : isObject tv = true
                · have hso : isObject sv = false := by
                    cases hx : isObject sv with
                    | false => rfl
                    | true =>
                      rw [show (isObject sv && isObject tv) =
                        (true && true) from by rw [hx, hto]] at hbo
                      simp at hbo
                  rw [mergePatch_nonobj_target hso tv,
                    mergePatch_null_onf tv htv honf_tv.2]
                · cases tv with
                  | obj kvs2 => simp [isObject] at hto
                  | null => rfl
                  | bool b2 => rfl
                  | num n2 => rfl
                  | str s3 => rfl
                  | arr xs2 => rfl

/-! ### Heap basics -/

theorem hveqL_iff (xs ys : List HVal)
    (h : ∀ x ∈ xs, ∀ b, hveq x b = true ↔ x = b) :
    hveqL xs ys = true ↔ xs = ys := by
  induction xs generalizing ys with
  | nil => cases ys <;> simp [hveqL]
  | cons x xs ihx =>
    cases ys with
    | nil => simp [hveqL]
    | cons y ys =>
      have h1 := h x (by simp)
      have h2 := ihx ys (fun z hz b => h z (by simp [hz]) b)
      simp [hveqL, h1, h2]

theorem hveq_iff (a b : HVal) : hveq a b = true ↔ a = b := by
  have main : ∀ n (a b : HVal), sizeOf a ≤ n → (hveq a b = true ↔ a = b) := by
    intro n
    induction n using Nat.strong_induction_on with
    | _ n ih =>
      intro a b hle
      cases a <;> cases b <;> simp [hveq]
      case harr.harr xs ys =>
        refine (hveqL_iff xs ys ?_).trans (by simp)
        intro x hx b
        have h1 : sizeOf x < sizeOf (HVal.harr xs) := by
          have := List.sizeOf_lt_of_mem hx
          simp only [HVal.harr.sizeOf_spec]
          omega
        exact ih (sizeOf x) (by omega) x b le_rfl
  exact main (sizeOf a) a b le_rfl

instance : DecidableEq HVal := fun a b => decidable_of_iff _ (hveq_iff a b)

instance : DecidableEq Heap := fun h1 h2 => by
  cases h1 with
  | mk c1 n1 =>
    cases h2 with
    | mk c2 n2 =>
      refine decidable_of_iff (c1 = c2 ∧ n1 = n2) ?_
      constructor
      · rintro ⟨rfl, rfl⟩
        rfl
      · intro h
        injection h with h1 h2
        exact ⟨h1, h2⟩

theorem cellsLookup_set_ne {cs : List (Nat × HObj)} {a b : Nat} {o : HObj}
    (h : a ≠ b) : cellsLookup (cellsSet cs b o) a = cellsLookup cs a := by
  induction cs with
  | nil => rfl
  | cons c rest ih =>
    obtain ⟨d, o2⟩ := c
    by_cases hd : d = b
    · subst hd
      simp only [cellsSet, if_pos rfl, cellsLookup]
      rw [if_neg (Ne.symm h), if_neg (Ne.symm h)]
    · simp only [cellsSet, if_neg hd, cellsLookup]
      by_cases hda : d = a
      · rw [if_pos hda, if_pos hda]
      · rw [if_neg hda, if_neg hda, ih]

theorem lookupCell_setCell_ne {h : Heap} {a b : Nat} {o : HObj} (hne : a ≠ b) :
    lookupCell (setCell h b o) a = lookupCell h a :=
  cellsLookup_set_ne hne

theorem setCell_nxt (h : Heap) (b : Nat) (o : HObj) :
    (setCell h b o).nxt = h.nxt := rfl

theorem putField_nxt (h : Heap) (ta : Nat) (k : String) (v : HVal) :
    (putField h ta k v).nxt = h.nxt := by
  unfold putField
  cases lookupCell h ta <;> rfl

theorem delField_nxt (h : Heap) (ta : Nat) (k : String) :
    (delField h ta k).nxt = h.nxt := by
  unfold delField
  cases lookupCell h ta <;> rfl

theorem lookupCell_putField_ne {h : Heap} {ta a : Nat} {k : String} {v : HVal}
    (hne : a ≠ ta) : lookupCell (putField h ta k v) a = lookupCell h a := by
  unfold putField
  cases lookupCell h ta with
  | none => rfl
  | some o => exact lookupCell_setCell_ne hne

theorem lookupCell_delField_ne {h : Heap} {ta a : Nat} {k : String}
    (hne : a ≠ ta) : lookupCell (delField h ta k) a = lookupCell h a := by
  unfold delField
  cases lookupCell h ta with
  | none => rfl
  | some o => exact lookupCell_setCell_ne hne

theorem lookupCell_alloc_ne {h : Heap} {o : HObj} {a : Nat} (hne : a ≠ h.nxt) :
    lookupCell (alloc h o).1 a = lookupCell h a := by
  unfold alloc lookupCell
  simp only [cellsLookup]
  rw [if_neg (Ne.symm hne)]

/-! ### Heap predicate lemmas -/

theorem heapOKB_lookup {B : Nat} {cs : List (Nat × HObj)} {a : Nat} {o : HObj}
    (h : heapOKB B cs = true) (hl : cellsLookup cs a = some o) (hB : B ≤ a) :
    objOKB B o = true := by
  induction cs with
  | nil => simp [cellsLookup] at hl
  | cons c rest ih =>
    obtain ⟨d, o2⟩ := c
    simp only [heapOKB, Bool.and_eq_true] at h
    by_cases hd : d = a
    · subst hd
      simp only [cellsLookup, if_pos rfl] at hl
      have ho := Option.some.inj hl
      subst ho
      rcases Bool.or_eq_true _ _ |>.mp h.1 with h1 | h1
      · simp at h1
        omega
      · exact h1
    · simp only [cellsLookup, if_neg hd] at hl
      exact ih h.2 hl

theorem objOKB_get {B : Nat} {o : HObj} (h : objOKB B o = true) (k : String) :
    fieldOKB B (objGet o k) = true := by
  induction o with
  | nil => rfl
  | cons kv rest ih =>
    obtain ⟨k2, v⟩ := kv
    simp only [objOKB, Bool.and_eq_true] at h
    simp only [objGet]
    by_cases hk : k2 = k
    · rw [if_pos hk]
      exact h.1
    · rw [if_neg hk]
      exact ih h.2

theorem objOKB_set {B : Nat} {o : HObj} {k : String} {v : HVal}
    (h : objOKB B o = true) (hv : fieldOKB B v = true) :
    objOKB B (objSet o k v) = true := by
  induction o with
  | nil => simp [objSet, objOKB, hv]
  | cons kv rest ih =>
    obtain ⟨k2, v2⟩ := kv
    simp only [objOKB, Bool.and_eq_true] at h
    simp only [objSet]
    by_cases hk : k2 = k
    · rw [if_pos hk]
      simp [objOKB, hv, h.2]
    · rw [if_neg hk]
      simp [objOKB, h.1, ih h.2]

theorem objOKB_del {B : Nat} {o : HObj} (h : objOKB B o = true) (k : String) :
    objOKB B (objDel o k) = true := by
  induction o with
  | nil => rfl
  | cons kv rest ih =>
    obtain ⟨k2, v2⟩ := kv
    simp only [objOKB, Bool.and_eq_true] at h
    by_cases hk : k2 = k
    · have he : objDel ((k2, v2) :: rest) k = objDel rest k := by
        simp [objDel, List.filter_cons, hk]
      rw [he]
      exact ih h.2
    · have he : objDel ((k2, v2) :: rest) k = (k2, v2) :: objDel rest k := by
        simp [objDel, List.filter_cons, hk]
      rw [he]
      simp [objOKB, h.1, ih h.2]

theorem heapOKB_set {B : Nat} {cs : List (Nat × HObj)} {a : Nat} {o : HObj}
    (h : heapOKB B cs = true) (ho : objOKB B o = true) :
    heapOKB B (cellsSet cs a o) = true := by
  induction cs with
  | nil => rfl
  | cons c rest ih =>
    obtain ⟨d, o2⟩ := c
    simp only [heapOKB, Bool.and_eq_true] at h
    simp only [cellsSet]
    by_cases hd : d = a
    · rw [if_pos hd]
      simp [heapOKB, ho, h.2]
    · rw [if_neg hd]
      simp only [heapOKB, Bool.and_eq_true]
      exact ⟨h.1, ih h.2⟩

theorem cellsNotIn_lookup {T : List Nat} {cs : List (Nat × HObj)} {a : Nat}
    {o : HObj} (h : cellsNotIn T cs = true) (hl : cellsLookup cs a = some o)
    (ha : T.contains a = false) : objNotIn T o = true := by
  induction cs with
  | nil => simp [cellsLookup] at hl
  | cons c rest ih =>
    obtain ⟨d, o2⟩ := c
    simp only [cellsNotIn, Bool.and_eq_true] at h
    by_cases hd : d = a
    · subst hd
      simp only [cellsLookup, if_pos rfl] at hl
      have ho := Option.some.inj hl
      subst ho
      rcases Bool.or_eq_true _ _ |>.mp h.1 with h1 | h1
      · rw [ha] at h1
        simp at h1
      · exact h1
    · simp only [cellsLookup, if_neg hd] at hl
      exact ih h.2 hl

theorem objNotIn_get {T : List Nat} {o : HObj} (h : objNotIn T o = true)
    (k : String) : valNotIn T (objGet o k) = true := by
  induction o with
  | nil => rfl
  | cons kv rest ih =>
    obtain ⟨k2, v⟩ := kv
    simp only [objNotIn, Bool.and_eq_true] at h
    simp only [objGet]
    by_cases hk : k2 = k
    · rw [if_pos hk]
      exact h.1
    · rw [if_neg hk]
      exact ih h.2

theorem objNotIn_set {T : List Nat} {o : HObj} {k : String} {v : HVal}
    (h : objNotIn T o = true) (hv : valNotIn T v = true) :
    objNotIn T (objSet o k v) = true := by
  induction o with
  | nil => simp [objSet, objNotIn, hv]
  | cons kv rest ih =>
    obtain ⟨k2, v2⟩ := kv
    simp only [objNotIn, Bool.and_eq_true] at h
    simp only [objSet]
    by_cases hk : k2 = k
    · rw [if_pos hk]
      simp [objNotIn, hv, h.2]
    · rw [if_neg hk]
      simp [objNotIn, h.1, ih h.2]

theorem objNotIn_del {T : List Nat} {o : HObj} (h : objNotIn T o = true)
    (k : String) : objNotIn T (objDel o k) = true := by
  induction o with
  | nil => rfl
  | cons kv rest ih =>
    obtain ⟨k2, v2⟩ := kv
    simp only [objNotIn, Bool.and_eq_true] at h
    by_cases hk : k2 = k
    · have he : objDel ((k2, v2) :: rest) k = objDel rest k := by
        simp [objDel, List.filter_cons, hk]
      rw [he]
      exact ih h.2
    · have he : objDel ((k2, v2) :: rest) k = (k2, v2) :: objDel rest k := by
        simp [objDel, List.filter_cons, hk]
      rw [he]
      simp [objNotIn, h.1, ih h.2]

theorem cellsNotIn_set {T : List Nat} {cs : List (Nat × HObj)} {a : Nat}
    {o : HObj} (h : cellsNotIn T cs = true) (ho : objNotIn T o = true) :
    cellsNotIn T (cellsSet cs a o) = true := by
  induction cs with
  | nil => rfl
  | cons c rest ih =>
    obtain ⟨d, o2⟩ := c
    simp only [cellsNotIn, Bool.and_eq_true] at h
    simp only [cellsSet]
    by_cases hd : d = a
    · rw [if_pos hd]
      simp only [cellsNotIn, Bool.and_eq_true]
      exact ⟨Bool.or_eq_true _ _ |>.mpr (Or.inr ho), h.2⟩
    · rw [if_neg hd]
      simp only [cellsNotIn, Bool.and_eq_true]
      exact ⟨h.1, ih h.2⟩

theorem heapOKB_of_cellsWB {n : Nat} {cs : List (Nat × HObj)}
    (h : cellsWB n cs = true) : heapOKB n cs = true := by
  induction cs with
  | nil => rfl
  | cons c rest ih =>
    obtain ⟨a, o⟩ := c
    simp only [cellsWB, Bool.and_eq_true] at h
    simp only [heapOKB, Bool.and_eq_true]
    exact ⟨Bool.or_eq_true _ _ |>.mpr (Or.inl h.1.1), ih h.2⟩

theorem cellsWB_lookup {n : Nat} {cs : List (Nat × HObj)} {a : Nat} {o : HObj}
    (h : cellsWB n cs = true) (hl : cellsLookup cs a = some o) :
    a < n ∧ objBelow n o = true := by
  induction cs with
  | nil => simp [cellsLookup] at hl
  | cons c rest ih =>
    obtain ⟨d, o2⟩ := c
    simp only [cellsWB, Bool.and_eq_true] at h
    by_cases hd : d = a
    · subst hd
      simp only [cellsLookup, if_pos rfl] at hl
      have ho := Option.some.inj hl
      subst ho
      exact ⟨by simpa using h.1.1, h.1.2⟩
    · simp only [cellsLookup, if_neg hd] at hl
      exact ih h.2 hl

theorem valNotIn_nilT : ∀ v : HVal, valNotIn [] v = true := by
  have main : ∀ n (v : HVal), sizeOf v ≤ n → valNotIn [] v = true := by
    intro n
    induction n using Nat.strong_induction_on with
    | _ n ih =>
      intro v hle
      cases v with
      | harr xs =>
        show listNotIn [] xs = true
        induction xs with
        | nil => rfl
        | cons x rest ihx =>
          simp only [listNotIn, Bool.and_eq_true]
          have h1 : sizeOf x < sizeOf (HVal.harr (x :: rest)) := by
            have := List.sizeOf_lt_of_mem (List.mem_cons_self x rest)
            simp only [HVal.harr.sizeOf_spec]
            omega
          have h2 : sizeOf (HVal.harr rest) ≤ n := by
            simp only [HVal.harr.sizeOf_spec] at hle ⊢
            have : sizeOf (x :: rest) = 1 + sizeOf x + sizeOf rest := by simp
            have hp := sizeOf_json_pos
            omega
          exact ⟨ih (sizeOf x) (by omega) x le_rfl, ihx h2⟩
      | hnull => rfl
      | hbool b => rfl
      | hnum m => rfl
      | hstr s => rfl
      | href a => rfl
  exact fun v => main (sizeOf v) v le_rfl

theorem objNotIn_nilT : ∀ o : HObj, objNotIn [] o = true := by
  intro o
  induction o with
  | nil => rfl
  | cons kv rest ih =>
    simp only [objNotIn, Bool.and_eq_true]
    exact ⟨valNotIn_nilT kv.2, ih⟩

theorem cellsNotIn_nilT : ∀ cs : List (Nat × HObj), cellsNotIn [] cs = true := by
  intro cs
  induction cs with
  | nil => rfl
  | cons c rest ih =>
    simp only [cellsNotIn, Bool.and_eq_true]
    exact ⟨Bool.or_eq_true _ _ |>.mpr (Or.inr (objNotIn_nilT c.2)), ih⟩

theorem contains_false_of_ge {T : List Nat} {B a : Nat}
    (hTB : ∀ x, T.contains x = true → x < B) (ha : B ≤ a) :
    T.contains a = false := by
  cases hc : T.contains a with
  | false => rfl
  | true =>
    have := hTB a hc
    omega

/-! ### What the clone guarantees -/

theorem cloneSpec : ∀ fuel : Nat,
    (∀ h v h1 v2, cloneV fuel h v = some (h1, v2) →
      (∀ a, a < h.nxt → lookupCell h1 a = lookupCell h a) ∧
      h.nxt ≤ h1.nxt ∧
      (∀ B, B ≤ h.nxt → heapOKB B h.cells = true → heapOKB B h1.cells = true) ∧
      (∀ B, B ≤ h.nxt → fieldOKB B v2 = true) ∧
      (∀ T, (∀ x, T.contains x = true → x < h.nxt) → valNotIn T v2 = true) ∧
      (∀ T, (∀ x, T.contains x = true → x < h.nxt) →
        cellsNotIn T h.cells = true → cellsNotIn T h1.cells = true)) ∧
    (∀ h o h1 o2, cloneObj fuel h o = some (h1, o2) →
      (∀ a, a < h.nxt → lookupCell h1 a = lookupCell h a) ∧
      h.nxt ≤ h1.nxt ∧
      (∀ B, B ≤ h.nxt → heapOKB B h.cells = true → heapOKB B h1.cells = true) ∧
      (∀ B, B ≤ h.nxt → objOKB B o2 = true) ∧
      (∀ T, (∀ x, T.contains x = true → x < h.nxt) → objNotIn T o2 = true) ∧
      (∀ T, (∀ x, T.contains x = true → x < h.nxt) →
        cellsNotIn T h.cells = true → cellsNotIn T h1.cells = true)) ∧
    (∀ h xs h1 xs2, cloneList fuel h xs = some (h1, xs2) →
      (∀ a, a < h.nxt → lookupCell h1 a = lookupCell h a) ∧
      h.nxt ≤ h1.nxt ∧
      (∀ B, B ≤ h.nxt → heapOKB B h.cells = true → heapOKB B h1.cells = true) ∧
      (∀ T, (∀ x, T.contains x = true → x < h.nxt) →
        listNotIn T xs2 = true) ∧
      (∀ T, (∀ x, T.contains x = true → x < h.nxt) →
        cellsNotIn T h.cells = true → cellsNotIn T h1.cells = true)) := by
  intro fuel
  induction fuel with
  | zero =>
    refine ⟨?_, ?_, ?_⟩ <;> intro h v h1 v2 hcl <;> simp [cloneV, cloneObj, cloneList] at hcl
  | succ f ih =>
    obtain ⟨ihV, ihO, ihL⟩ := ih
    refine ⟨?_, ?_, ?_⟩
    · intro h v h1 v2 hcl
      cases v with
      | href a =>
        simp only [cloneV] at hcl
        cases hla : lookupCell h a with
        | none => rw [hla] at hcl; simp at hcl
        | some o =>
          rw [hla] at hcl
          simp only [] at hcl
          cases hco : cloneObj f h o with
          | none => rw [hco] at hcl; simp at hcl
          | some ho2 =>
            obtain ⟨hA, o2⟩ := ho2
            rw [hco] at hcl
            simp only [alloc] at hcl
            have hh1 : h1 = ⟨(hA.nxt, o2) :: hA.cells, hA.nxt + 1⟩ ∧
                v2 = .href hA.nxt := by
              constructor
              · exact (Prod.ext_iff.mp (Option.some.inj hcl)).1.symm
              · exact (Prod.ext_iff.mp (Option.some.inj hcl)).2.symm
            obtain ⟨hh, hv⟩ := hh1
            subst hh
            subst hv
            obtain ⟨p1, p2, p3, p4, p5, p6⟩ := ihO h o hA o2 hco
            refine ⟨?_, ?_, ?_, ?_, ?_, ?_⟩
            · intro a2 ha2
              have hne : a2 ≠ hA.nxt := by omega
              show cellsLookup ((hA.nxt, o2) :: hA.cells) a2 = lookupCell h a2
              simp only [cellsLookup, if_neg (Ne.symm hne)]
              exact p1 a2 ha2
            · show h.nxt ≤ hA.nxt + 1
              omega
            · intro B hB hok
              show heapOKB B ((hA.nxt, o2) :: hA.cells) = true
              simp only [heapOKB, Bool.and_eq_true]
              refine ⟨Bool.or_eq_true _ _ |>.mpr (Or.inr (p4 B hB)), p3 B hB hok⟩
            · intro B hB
              show decide (B ≤ hA.nxt) = true
              simp
              omega
            · intro T hT
              show (!(T.contains hA.nxt)) = true
              rw [contains_false_of_ge hT (by omega)]
              rfl
            · intro T hT hcells
              show cellsNotIn T ((hA.nxt, o2) :: hA.cells) = true
              simp only [cellsNotIn, Bool.and_eq_true]
              exact ⟨Bool.or_eq_true _ _ |>.mpr (Or.inr (p5 T hT)),
                p6 T hT hcells⟩
      | harr xs =>
        simp only [cloneV] at hcl
        cases hcL : cloneList f h xs with
        | none => rw [hcL] at hcl; simp at hcl
        | some hx2 =>
          obtain ⟨hA, xs2⟩ := hx2
          rw [hcL] at hcl
          simp only [] at hcl
          have hh : h1 = hA ∧ v2 = .harr xs2 := by
            constructor
            · exact (Prod.ext_iff.mp (Option.some.inj hcl)).1.symm
            · exact (Prod.ext_iff.mp (Option.some.inj hcl)).2.symm
          obtain ⟨hh1, hv⟩ := hh
          subst hh1
          subst hv
          obtain ⟨p1, p2, p3, p4, p5⟩ := ihL h xs _ xs2 hcL
          exact ⟨p1, p2, p3, fun B hB => rfl, fun T hT => p4 T hT, p5⟩
      | hnull =>
        simp only [cloneV] at hcl
        obtain ⟨hh, hv⟩ : h1 = h ∧ v2 = .hnull := by
          constructor
          · exact (Prod.ext_iff.mp (Option.some.inj hcl)).1.symm
          · exact (Prod.ext_iff.mp (Option.some.inj hcl)).2.symm
        subst hh
        subst hv
        exact ⟨fun a _ => rfl, le_rfl, fun B _ hok => hok, fun B _ => rfl,
          fun T _ => rfl, fun T _ hc => hc⟩
      | hbool b =>
        simp only [cloneV] at hcl
        obtain ⟨hh, hv⟩ : h1 = h ∧ v2 = .hbool b := by
          constructor
          · exact (Prod.ext_iff.mp (Option.some.inj hcl)).1.symm
          · exact (Prod.ext_iff.mp (Option.some.inj hcl)).2.symm
        subst hh
        subst hv
        exact ⟨fun a _ => rfl, le_rfl, fun B _ hok => hok, fun B _ => rfl,
          fun T _ => rfl, fun T _ hc => hc⟩
      | hnum n =>
        simp only [cloneV] at hcl
        obtain ⟨hh, hv⟩ : h1 = h ∧ v2 = .hnum n := by
          constructor
          · exact (Prod.ext_iff.mp (Option.some.inj hcl)).1.symm
          · exact (Prod.ext_iff.mp (Option.some.inj hcl)).2.symm
        subst hh
        subst hv
        exact ⟨fun a _ => rfl, le_rfl, fun B _ hok => hok, fun B _ => rfl,
          fun T _ => rfl, fun T _ hc => hc⟩
      | hstr s =>
        simp only [cloneV] at hcl
        obtain ⟨hh, hv⟩ : h1 = h ∧ v2 = .hstr s := by
          constructor
          · exact (Prod.ext_iff.mp (Option.some.inj hcl)).1.symm
          · exact (Prod.ext_iff.mp (Option.some.inj hcl)).2.symm
        subst hh
        subst hv
        exact ⟨fun a _ => rfl, le_rfl, fun B _ hok => hok, fun B _ => rfl,
          fun T _ => rfl, fun T _ hc => hc⟩
    · intro h o h1 o2 hcl
      cases o with
      | nil =>
        simp only [cloneObj] at hcl
        obtain ⟨hh, hv⟩ : h1 = h ∧ o2 = [] := by
          constructor
          · exact (Prod.ext_iff.mp (Option.some.inj hcl)).1.symm
          · exact (Prod.ext_iff.mp (Option.some.inj hcl)).2.symm
        subst hh
        subst hv
        exact ⟨fun a _ => rfl, le_rfl, fun B _ hok => hok, fun B _ => rfl,
          fun T _ => rfl, fun T _ hc => hc⟩
      | cons kv rest =>
        obtain ⟨k, v⟩ := kv
        simp only [cloneObj] at hcl
        cases hcv : cloneV f h v with
        | none => rw [hcv] at hcl; simp at hcl
        | some hv2 =>
          obtain ⟨hA, v2⟩ := hv2
          rw [hcv] at hcl
          simp only [] at hcl
          cases hcr : cloneObj f hA rest with
          | none => rw [hcr] at hcl; simp at hcl
          | some hr2 =>
            obtain ⟨hB2, rest2⟩ := hr2
            rw [hcr] at hcl
            simp only [] at hcl
            obtain ⟨hh, hv⟩ : h1 = hB2 ∧ o2 = (k, v2) :: rest2 := by
              constructor
              · exact (Prod.ext_iff.mp (Option.some.inj hcl)).1.symm
              · exact (Prod.ext_iff.mp (Option.some.inj hcl)).2.symm
            subst hh
            subst hv
            obtain ⟨p1, p2, p3, p4, p5, p6⟩ := ihV h v hA v2 hcv
            obtain ⟨q1, q2, q3, q4, q5, q6⟩ := ihO hA rest _ rest2 hcr
            refine ⟨?_, by omega, ?_, ?_, ?_, ?_⟩
            · intro a ha
              rw [q1 a (by omega), p1 a ha]
            · intro B hB hok
              exact q3 B (by omega) (p3 B hB hok)
            · intro B hB
              simp only [objOKB, Bool.and_eq_true]
              exact ⟨p4 B hB, q4 B (by omega)⟩
            · intro T hT
              simp only [objNotIn, Bool.and_eq_true]
              refine ⟨p5 T hT, q5 T ?_⟩
              intro x hx
              have := hT x hx
              omega
            · intro T hT hcells
              refine q6 T ?_ (p6 T hT hcells)
              intro x hx
              have := hT x hx
              omega
    · intro h xs h1 xs2 hcl
      cases xs with
      | nil =>
        simp only [cloneList] at hcl
        obtain ⟨hh, hv⟩ : h1 = h ∧ xs2 = [] := by
          constructor
          · exact (Prod.ext_iff.mp (Option.some.inj hcl)).1.symm
          · exact (Prod.ext_iff.mp (Option.some.inj hcl)).2.symm
        subst hh
        subst hv
        exact ⟨fun a _ => rfl, le_rfl, fun B _ hok => hok,
          fun T _ => rfl, fun T _ hc => hc⟩
      | cons x rest =>
        simp only [cloneList] at hcl
        cases hcv : cloneV f h x with
        | none => rw [hcv] at hcl; simp at hcl
        | some hv2 =>
          obtain ⟨hA, x2⟩ := hv2
          rw [hcv] at hcl
          simp only [] at hcl
          cases hcr : cloneList f hA rest with
          | none => rw [hcr] at hcl; simp at hcl
          | some hr2 =>
            obtain ⟨hB2, rest2⟩ := hr2
            rw [hcr] at hcl
            simp only [] at hcl
            obtain ⟨hh, hv⟩ : h1 = hB2 ∧ xs2 = x2 :: rest2 := by
              constructor
              · exact (Prod.ext_iff.mp (Option.some.inj hcl)).1.symm
              · exact (Prod.ext_iff.mp (Option.some.inj hcl)).2.symm
            subst hh
            subst hv
            obtain ⟨p1, p2, p3, p4, p5, p6⟩ := ihV h x hA x2 hcv
            obtain ⟨q1, q2, q3, q4, q5⟩ := ihL hA rest _ rest2 hcr
            refine ⟨?_, by omega, ?_, ?_, ?_⟩
            · intro a ha
              rw [q1 a (by omega), p1 a ha]
            · intro B hB hok
              exact q3 B (by omega) (p3 B hB hok)
            · intro T hT
              simp only [listNotIn, Bool.and_eq_true]
              refine ⟨p5 T hT, q4 T ?_⟩
              intro x3 hx
              have := hT x3 hx
              omega
            · intro T hT hcells
              refine q5 T ?_ (p6 T hT hcells)
              intro x3 hx
              have := hT x3 hx
              omega

/-! ### Branch equations for the heap merge -/

theorem mergeH_nonref (f : Nat) (h : Heap) (t p : HVal)
    (hp : ∀ pa, p ≠ .href pa) : mergeH (f + 1) h t p = some (h, p) := by
  cases p
  case href pa => exact absurd rfl (hp pa)
  all_goals rfl

theorem mergeH_ref_ref (f : Nat) (h : Heap) (ta pa : Nat) :
    mergeH (f + 1) h (.href ta) (.href pa) =
      match lookupCell h pa with
      | none => none
      | some pObj =>
        match mergeInto f h ta pObj with
        | none => none
        | some h2 => some (h2, .href ta) := rfl

theorem mergeH_ref_nonref (f : Nat) (h : Heap) (t : HVal) (pa : Nat)
    (ht : ∀ ta, t ≠ .href ta) :
    mergeH (f + 1) h t (.href pa) =
      match lookupCell h pa with
      | none => none
      | some pObj =>
        match mergeInto f ⟨(h.nxt, []) :: h.cells, h.nxt + 1⟩ h.nxt pObj with
        | none => none
        | some h2 => some (h2, .href h.nxt) := by
  cases t
  case href ta => exact absurd rfl (ht ta)
  all_goals rfl

theorem mergeInto_cons_null (f : Nat) (h : Heap) (ta : Nat) (k : String)
    (rest : HObj) :
    mergeInto (f + 1) h ta ((k, .hnull) :: rest) =
      mergeInto f (delField h ta k) ta rest := rfl

theorem mergeInto_cons_nn (f : Nat) (h : Heap) (ta : Nat) (k : String)
    (v : HVal) (rest : HObj) (hv : v ≠ .hnull) :
    mergeInto (f + 1) h ta ((k, v) :: rest) =
      match mergeH f h (getField h ta k) v with
      | none => none
      | some (h1, merged) =>
        mergeInto f (putField h1 ta k merged) ta rest := by
  cases v
  case hnull => exact absurd rfl hv
  all_goals rfl

theorem fieldOKB_nonref {B : Nat} {p : HVal} (hp : ∀ pa, p ≠ .href pa) :
    fieldOKB B p = true := by
  cases p
  case href pa => exact absurd rfl (hp pa)
  all_goals rfl

/-! ### What the heap merge guarantees -/

theorem mergeSpec (B : Nat) (T : List Nat)
    (hTB : ∀ x, T.contains x = true → x < B) : ∀ fuel : Nat,
    (∀ h t p h1 r, mergeH fuel h t p = some (h1, r) →
      B ≤ h.nxt → heapOKB B h.cells = true → fieldOKB B t = true →
      cellsNotIn T h.cells = true → valNotIn T p = true →
      (∀ a, a < B → lookupCell h1 a = lookupCell h a) ∧
      h.nxt ≤ h1.nxt ∧ heapOKB B h1.cells = true ∧ fieldOKB B r = true ∧
      valNotIn T r = true ∧ cellsNotIn T h1.cells = true) ∧
    (∀ h ta o h1, mergeInto fuel h ta o = some h1 →
      B ≤ h.nxt → B ≤ ta → heapOKB B h.cells = true →
      cellsNotIn T h.cells = true → objNotIn T o = true →
      (∀ a, a < B → lookupCell h1 a = lookupCell h a) ∧
      h.nxt ≤ h1.nxt ∧ heapOKB B h1.cells = true ∧
      cellsNotIn T h1.cells = true) := by
  intro fuel
  induction fuel with
  | zero =>
    constructor
    · intro h t p h1 r hm
      simp [mergeH] at hm
    · intro h ta o h1 hm
      simp [mergeInto] at hm
  | succ f ih =>
    obtain ⟨ihH, ihI⟩ := ih
    constructor
    · intro h t p h1 r hm hB hok hft hcni hvni
      by_cases hpr : ∃ pa, p = .href pa
      · obtain ⟨pa, rfl⟩ := hpr
        have hpaT : T.contains pa = false := by
          simpa [valNotIn] using hvni
        by_cases htr : ∃ ta, t = .href ta
        · obtain ⟨ta, rfl⟩ := htr
          have hBta : B ≤ ta := of_decide_eq_true hft
          rw [mergeH_ref_ref] at hm
          cases hlp : lookupCell h pa with
          | none => rw [hlp] at hm; simp at hm
          | some pObj =>
            rw [hlp] at hm
            simp only [] at hm
            have hpObj : objNotIn T pObj = true :=
              cellsNotIn_lookup hcni hlp hpaT
            cases hmi : mergeInto f h ta pObj with
            | none => rw [hmi] at hm; simp at hm
            | some h2 =>
              rw [hmi] at hm
              simp only [] at hm
              obtain ⟨hh, hr⟩ : h1 = h2 ∧ r = .href ta := by
                constructor
                · exact (Prod.ext_iff.mp (Option.some.inj hm)).1.symm
                · exact (Prod.ext_iff.mp (Option.some.inj hm)).2.symm
              subst hh
              subst hr
              obtain ⟨q1, q2, q3, q4⟩ :=
                ihI h ta pObj _ hmi hB hBta hok hcni hpObj
              refine ⟨q1, q2, q3, decide_eq_true hBta, ?_, q4⟩
              show (!(T.contains ta)) = true
              rw [contains_false_of_ge hTB hBta]
              rfl
        · have ht2 : ∀ ta2, t ≠ .href ta2 := fun ta2 he => htr ⟨ta2, he⟩
          rw [mergeH_ref_nonref f h t pa ht2] at hm
          cases hlp : lookupCell h pa with
          | none => rw [hlp] at hm; simp at hm
          | some pObj =>
            rw [hlp] at hm
            simp only [] at hm
            have hpObj : objNotIn T pObj = true :=
              cellsNotIn_lookup hcni hlp hpaT
            cases hmi :
                mergeInto f ⟨(h.nxt, []) :: h.cells, h.nxt + 1⟩ h.nxt pObj with
            | none => rw [hmi] at hm; simp at hm
            | some h2 =>
              rw [hmi] at hm
              simp only [] at hm
              obtain ⟨hh, hr⟩ : h1 = h2 ∧ r = .href h.nxt := by
                constructor
                · exact (Prod.ext_iff.mp (Option.some.inj hm)).1.symm
                · exact (Prod.ext_iff.mp (Option.some.inj hm)).2.symm
              subst hh
              subst hr
              have hok2 : heapOKB B ((h.nxt, []) :: h.cells) = true := by
                simp only [heapOKB, Bool.and_eq_true]
                exact ⟨Bool.or_eq_true _ _ |>.mpr (Or.inr rfl), hok⟩
              have hcni2 : cellsNotIn T ((h.nxt, []) :: h.cells) = true := by
                simp only [cellsNotIn, Bool.and_eq_true]
                exact ⟨Bool.or_eq_true _ _ |>.mpr (Or.inr rfl), hcni⟩
              obtain ⟨q1, q2, q3, q4⟩ :=
                ihI ⟨(h.nxt, []) :: h.cells, h.nxt + 1⟩ h.nxt pObj _ hmi
                  (by show B ≤ h.nxt + 1; omega) hB hok2 hcni2 hpObj
              have hq2 : h.nxt + 1 ≤ h1.nxt := q2
              refine ⟨?_, by omega, q3, decide_eq_true hB, ?_, q4⟩
              · intro a ha
                rw [q1 a ha]
                show cellsLookup ((h.nxt, []) :: h.cells) a = lookupCell h a
                simp only [cellsLookup]
                rw [if_neg (by omega : ¬ (h.nxt = a))]
                rfl
              · show (!(T.contains h.nxt)) = true
                rw [contains_false_of_ge hTB hB]
                rfl
      · have hp2 : ∀ pa, p ≠ .href pa := fun pa he => hpr ⟨pa, he⟩
        rw [mergeH_nonref f h t p hp2] at hm
        obtain ⟨hh, hr⟩ : h1 = h ∧ r = p := by
          constructor
          · exact (Prod.ext_iff.mp (Option.some.inj hm)).1.symm
          · exact (Prod.ext_iff.mp (Option.some.inj hm)).2.symm
        subst hh
        subst hr
        exact ⟨fun a _ => rfl, le_rfl, hok, fieldOKB_nonref hp2, hvni, hcni⟩
    · intro h ta o h1 hm hB hBta hok hcni honi
      have hTta : T.contains ta = false := contains_false_of_ge hTB hBta
      cases o with
      | nil =>
        simp only [mergeInto] at hm
        have hh : h1 = h := (Option.some.inj hm).symm
        subst hh
        exact ⟨fun a _ => rfl, le_rfl, hok, hcni⟩
      | cons kv rest =>
        obtain ⟨k, v⟩ := kv
        simp only [objNotIn, Bool.and_eq_true] at honi
        obtain ⟨hvNI, hrestNI⟩ := honi
        by_cases hvn : v = .hnull
        · subst hvn
          rw [mergeInto_cons_null] at hm
          have hd1 : ∀ a, a < B →
              lookupCell (delField h ta k) a = lookupCell h a :=
            fun a ha => lookupCell_delField_ne (by omega)
          have hd2 : (delField h ta k).nxt = h.nxt := delField_nxt h ta k
          have hd3 : heapOKB B (delField h ta k).cells = true := by
            unfold delField
            cases hl : lookupCell h ta with
            | none => exact hok
            | some o2 =>
              exact heapOKB_set hok (objOKB_del (heapOKB_lookup hok hl hBta) k)
          have hd4 : cellsNotIn T (delField h ta k).cells = true := by
            unfold delField
            cases hl : lookupCell h ta with
            | none => exact hcni
            | some o2 =>
              exact cellsNotIn_set hcni
                (objNotIn_del (cellsNotIn_lookup hcni hl hTta) k)
          obtain ⟨q1, q2, q3, q4⟩ :=
            ihI (delField h ta k) ta rest _ hm
              (by rw [hd2]; exact hB) hBta hd3 hd4 hrestNI
          refine ⟨?_, ?_, q3, q4⟩
          · intro a ha
            rw [q1 a ha, hd1 a ha]
          · rw [hd2] at q2
            exact q2
        · rw [mergeInto_cons_nn f h ta k v rest hvn] at hm
          have hfOK : fieldOKB B (getField h ta k) = true := by
            unfold getField
            cases hl : lookupCell h ta with
            | none => rfl
            | some o2 => exact objOKB_get (heapOKB_lookup hok hl hBta) k
          cases hmh : mergeH f h (getField h ta k) v with
          | none => rw [hmh] at hm; simp at hm
          | some pr =>
            obtain ⟨h2, merged⟩ := pr
            rw [hmh] at hm
            simp only [] at hm
            obtain ⟨p1, p2, p3, p4, p5, p6⟩ :=
              ihH h (getField h ta k) v _ _ hmh hB hok hfOK hcni hvNI
            have hput1 : ∀ a, a < B →
                lookupCell (putField h2 ta k merged) a = lookupCell h2 a :=
              fun a ha => lookupCell_putField_ne (by omega)
            have hput2 : (putField h2 ta k merged).nxt = h2.nxt :=
              putField_nxt h2 ta k merged
            have hput3 : heapOKB B (putField h2 ta k merged).cells = true := by
              unfold putField
              cases hl : lookupCell h2 ta with
              | none => exact p3
              | some o2 =>
                exact heapOKB_set p3 (objOKB_set (heapOKB_lookup p3 hl hBta) p4)
            have hput4 : cellsNotIn T (putField h2 ta k merged).cells = true := by
              unfold putField
              cases hl : lookupCell h2 ta with
              | none => exact p6
              | some o2 =>
                exact cellsNotIn_set p6
                  (objNotIn_set (cellsNotIn_lookup p6 hl hTta) p5)
            obtain ⟨q1, q2, q3, q4⟩ :=
              ihI (putField h2 ta k merged) ta rest _ hm
                (by rw [hput2]; omega) hBta hput3 hput4 hrestNI
            refine ⟨?_, ?_, q3, q4⟩
            · intro a ha
              rw [q1 a ha, hput1 a ha, p1 a ha]
            · rw [hput2] at q2
              omega

/-! ### Read-back only depends on the cells the value can reach -/

theorem readBackAgree (n : Nat) (h h2 : Heap)
    (hag : ∀ a, a < n → lookupCell h2 a = lookupCell h a)
    (hwb : cellsWB n h.cells = true) : ∀ g : Nat,
    (∀ v, valBelow n v = true → readBack g h2 v = readBack g h v) ∧
    (∀ xs, listBelow n xs = true →
      readBackList g h2 xs = readBackList g h xs) ∧
    (∀ o, objBelow n o = true → readBackObj g h2 o = readBackObj g h o) := by
  intro g
  induction g with
  | zero => exact ⟨fun v _ => rfl, fun xs _ => rfl, fun o _ => rfl⟩
  | succ g ih =>
    obtain ⟨ihV, ihL, ihO⟩ := ih
    refine ⟨?_, ?_, ?_⟩
    · intro v hv
      cases v with
      | hnull => rfl
      | hbool b => rfl
      | hnum m => rfl
      | hstr s => rfl
      | harr xs =>
        have hxs : listBelow n xs = true := hv
        simp only [readBack]
        rw [ihL xs hxs]
      | href a =>
        have ha : a < n := of_decide_eq_true hv
        simp only [readBack]
        rw [hag a ha]
        cases hl : lookupCell h a with
        | none => rfl
        | some o =>
          have hbo : objBelow n o = true := (cellsWB_lookup hwb hl).2
          simp only []
          rw [ihO o hbo]
    · intro xs hxs
      cases xs with
      | nil => rfl
      | cons x rest =>
        simp only [listBelow, Bool.and_eq_true] at hxs
        simp only [readBackList]
        rw [ihV x hxs.1, ihL rest hxs.2]
    · intro o ho
      cases o with
      | nil => rfl
      | cons kv rest =>
        obtain ⟨k, v⟩ := kv
        simp only [objBelow, Bool.and_eq_true] at ho
        simp only [readBackObj]
        rw [ihV v ho.1, ihO rest ho.2]

/-- Read-back is unchanged by mutating a cell inside an isolated region
`T` that the value provably never reaches. -/
theorem readBackSetT (T : List Nat) (h : Heap) (a0 : Nat) (o0 : HObj)
    (ha0 : T.contains a0 = true)
    (hcells : cellsNotIn T h.cells = true) : ∀ g : Nat,
    (∀ v, valNotIn T v = true →
      readBack g (setCell h a0 o0) v = readBack g h v) ∧
    (∀ xs, listNotIn T xs = true →
      readBackList g (setCell h a0 o0) xs = readBackList g h xs) ∧
    (∀ o, objNotIn T o = true →
      readBackObj g (setCell h a0 o0) o = readBackObj g h o) := by
  intro g
  induction g with
  | zero => exact ⟨fun v _ => rfl, fun xs _ => rfl, fun o _ => rfl⟩
  | succ g ih =>
    obtain ⟨ihV, ihL, ihO⟩ := ih
    refine ⟨?_, ?_, ?_⟩
    · intro v hv
      cases v with
      | hnull => rfl
      | hbool b => rfl
      | hnum m => rfl
      | hstr s => rfl
      | harr xs =>
        have hxs : listNotIn T xs = true := hv
        simp only [readBack]
        rw [ihL xs hxs]
      | href a =>
        have haT : T.contains a = false := by
          simpa [valNotIn] using hv
        have hne : a ≠ a0 := by
          intro he
          rw [he, ha0] at haT
          exact Bool.noConfusion haT
        simp only [readBack]
        rw [lookupCell_setCell_ne hne]
        cases hl : lookupCell h a with
        | none => rfl
        | some o =>
          have ho : objNotIn T o = true := cellsNotIn_lookup hcells hl haT
          simp only []
          rw [ihO o ho]
    · intro xs hxs
      cases xs with
      | nil => rfl
      | cons x rest =>
        simp only [listNotIn, Bool.and_eq_true] at hxs
        simp only [readBackList]
        rw [ihV x hxs.1, ihL rest hxs.2]
    · intro o ho
      cases o with
      | nil => rfl
      | cons kv rest =>
        obtain ⟨k, v⟩ := kv
        simp only [objNotIn, Bool.and_eq_true] at ho
        simp only [readBackObj]
        rw [ihV v ho.1, ihO rest ho.2]

/-! ### The claims -/

/-- C1 (amended): the generate/apply roundtrip holds for canonical
Object-rooted `source` and `target` whenever no object member of `target`
has the value Null — the one shape an RFC 7386 patch can never produce,
and the reason the claim fails as stated (see the counterexample).  Under
that condition, `mergePatch source (generatePatch source target)`
deep-equals `target`. -/
theorem c1_generate_roundtrip (s t : Json) (hcs : canonB s = true)
    (hct : canonB t = true) (hos : isObject s = true)
    (hot : isObject t = true) (hnf : onfB t = true) :
    deepEqual (mergePatch s (generatePatch s t)) t = true := by
  rw [deepEqual_iff]
  exact (genRoundtrip (sizeOf t) s t le_rfl hcs hct hos hot).2 hnf

/-- C1, counterexample to the claim as stated: for the Object-rooted
canonical pair `source = {}` and `target = ("a" : null)`, the generated
patch maps "a" to Null, which `mergePatch` interprets as a deletion, so
the roundtrip yields `{}` rather than `target`. -/
theorem c1_counterexample :
    canonB (Json.obj []) = true ∧
    canonB (Json.obj [("a", Json.null)]) = true ∧
    isObject (Json.obj []) = true ∧
    isObject (Json.obj [("a", Json.null)]) = true ∧
    generatePatch (Json.obj []) (Json.obj [("a", Json.null)]) =
      Json.obj [("a", Json.null)] ∧
    mergePatch (Json.obj [])
      (generatePatch (Json.obj []) (Json.obj [("a", Json.null)])) =
      Json.obj [] ∧
    deepEqual
      (mergePatch (Json.obj [])
        (generatePatch (Json.obj []) (Json.obj [("a", Json.null)])))
      (Json.obj [("a", Json.null)]) = false := by decide

/-- C1, witness: the roundtrip at the spec's own diff example,
`generatePatch ("age" : 30, "city" : "NYC", "name" : "John")
("age" : 30, "name" : "Jane")`. -/
theorem c1_witness :
    generatePatch
      (Json.obj [("age", Json.num 30), ("city", Json.str "NYC"),
        ("name", Json.str "John")])
      (Json.obj [("age", Json.num 30), ("name", Json.str "Jane")]) =
      Json.obj [("city", Json.null), ("name", Json.str "Jane")] ∧
    deepEqual
      (mergePatch
        (Json.obj [("age", Json.num 30), ("city", Json.str "NYC"),
          ("name", Json.str "John")])
        (generatePatch
          (Json.obj [("age", Json.num 30), ("city", Json.str "NYC"),
            ("name", Json.str "John")])
          (Json.obj [("age", Json.num 30), ("name", Json.str "Jane")])))
      (Json.obj [("age", Json.num 30), ("name", Json.str "Jane")]) = true :=
  ⟨by decide,
   c1_generate_roundtrip _ _ (by decide) (by decide) (by decide) (by decide)
     (by decide)⟩

/-- C2 (amended): the equality oracle is NOT a recursive tag-and-content
comparison — it is, definitionally, the round trip through the serialized
form (`deepEqual a b` IS `marshal a == marshal b`, first conjunct).
Nevertheless its extension is exactly deep structural equality: it returns
a definite boolean for every pair of canonical values and is `true` iff
the two values are equal (second conjunct, via injectivity of the
serializer). -/
theorem c2_equality_oracle (a b : Json) :
    deepEqual a b = (marshal a == marshal b) ∧
    (deepEqual a b = true ↔ a = b) :=
  ⟨rfl, deepEqual_iff a b⟩

/-- C2, counterexample to the "not by round-tripping through a serialized
form" clause: at a concrete pair of container values the oracle literally
evaluates the serializer on both sides and compares the strings — the
first conjunct holds by `rfl`, i.e. by the oracle's own definition as
translated from `deepEqual` in jsonmerge.go, which calls `json.Marshal`
on both arguments. -/
theorem c2_serialized_form :
    deepEqual (Json.arr []) (Json.obj []) =
      (marshal (Json.arr []) == marshal (Json.obj [])) ∧
    marshal (Json.arr []) = "[]" ∧
    marshal (Json.obj []) = String.mk [lbrace, rbrace] ∧
    deepEqual (Json.arr []) (Json.obj []) = false := by
  refine ⟨rfl, by decide, by decide, by decide⟩

/-- C3: merging any target with an Object patch whose keys are unique
yields an Object; a non-Object target is treated exactly as the empty
Object; and the result's binding at every key follows RFC 7386: a key the
patch maps to Null is absent, a key the patch maps to non-Null `v` holds
`mergePatch prior v` (`prior` the target's binding, Null when absent), and
a key the patch does not mention keeps the target's binding. -/
theorem c3_object_merge (t : Json) (pObj : List (String × Json))
    (hnd : keysNodup pObj) (ht : canonB t = true) :
    isObject (mergePatch t (.obj pObj)) = true ∧
    (isObject t = false →
      mergePatch t (.obj pObj) = mergePatch (.obj []) (.obj pObj)) ∧
    ∀ key, lookupKey (objEntries (mergePatch t (.obj pObj))) key =
      mergeLookupSpec (objEntries t) pObj key := by
  refine ⟨rfl, ?_, ?_⟩
  · intro hno
    rw [mergePatch_nonobj_target hno]
    rfl
  · intro key
    show lookupKey (mergeEntries (objEntries t) pObj) key = _
    exact mergeEntries_lookup pObj (objEntries t) (canonB_objEntries ht).1
      hnd key

/-- C3, witness: the spec's nested example, target
`("a" : ("b" : "c"))` merged with patch
`("a" : ("b" : "d", "c" : null))`. -/
theorem c3_witness :
    isObject
      (mergePatch (Json.obj [("a", Json.obj [("b", Json.str "c")])])
        (Json.obj [("a", Json.obj [("b", Json.str "d"), ("c", Json.null)])]))
      = true ∧
    (isObject (Json.obj [("a", Json.obj [("b", Json.str "c")])]) = false →
      mergePatch (Json.obj [("a", Json.obj [("b", Json.str "c")])])
        (Json.obj [("a", Json.obj [("b", Json.str "d"), ("c", Json.null)])]) =
      mergePatch (Json.obj [])
        (Json.obj [("a", Json.obj [("b", Json.str "d"), ("c", Json.null)])])) ∧
    ∀ key,
      lookupKey
        (objEntries
          (mergePatch (Json.obj [("a", Json.obj [("b", Json.str "c")])])
            (Json.obj
              [("a", Json.obj [("b", Json.str "d"), ("c", Json.null)])])))
        key =
      mergeLookupSpec (objEntries (Json.obj [("a", Json.obj [("b", Json.str "c")])]))
        [("a", Json.obj [("b", Json.str "d"), ("c", Json.null)])] key :=
  c3_object_merge _ _ (by unfold keysNodup; decide) (by decide)

/-- C4: a non-Object patch (scalar, Null or Array) replaces any target
wholesale. -/
theorem c4_nonobject_replacement (t p : Json) (h : isObject p = false) :
    mergePatch t p = p := by
  cases p with
  | obj kvs => simp [isObject] at h
  | null => rfl
  | bool b => rfl
  | num n => rfl
  | str s => rfl
  | arr xs => rfl

/-- C4, witness: the spec's replacement examples — a string patch and an
array patch replace an object target wholesale, and an array inside an
object patch replaces the target's array without element-wise merging. -/
theorem c4_witness :
    mergePatch (Json.obj [("a", Json.str "foo")]) (Json.str "bar") =
      Json.str "bar" ∧
    mergePatch (Json.obj [("a", Json.str "b")]) (Json.arr [Json.str "c"]) =
      Json.arr [Json.str "c"] ∧
    mergePatch (Json.obj [("a", Json.arr [Json.str "x"])])
      (Json.obj [("a", Json.arr [Json.str "y", Json.str "z"])]) =
      Json.obj [("a", Json.arr [Json.str "y", Json.str "z"])] :=
  ⟨c4_nonobject_replacement _ _ (by decide),
   c4_nonobject_replacement _ _ (by decide), by decide⟩

/-- C5: the merge is independent of the enumeration order of the patch
Object's (unique-keyed) entries — any two permutations of the entry list
produce equal results on every canonical target. -/
theorem c5_order_independence (t : Json) (p1 p2 : List (String × Json))
    (hperm : p1.Perm p2) (hnd : keysNodup p1) (ht : canonB t = true) :
    mergePatch t (.obj p1) = mergePatch t (.obj p2) := by
  show Json.obj (mergeEntries (objEntries t) p1) =
    Json.obj (mergeEntries (objEntries t) p2)
  rw [mergeEntries_perm hperm hnd (objEntries t) (canonB_objEntries ht).1]

/-- C5, witness: the two orders of a two-entry patch (one nested merge,
one deletion) give the same result. -/
theorem c5_witness :
    mergePatch (Json.obj [("a", Json.obj [("b", Json.str "c")]), ("d", Json.num 7)])
      (.obj [("a", Json.obj [("b", Json.str "d")]), ("d", Json.null)]) =
    mergePatch (Json.obj [("a", Json.obj [("b", Json.str "c")]), ("d", Json.num 7)])
      (.obj [("d", Json.null), ("a", Json.obj [("b", Json.str "d")])]) :=
  c5_order_independence _ _ _ (by decide) (by unfold keysNodup; decide)
    (by decide)

/-- C6 (amended): a default (copy) mode merge on the heap never mutates
any pre-existing cell, so both the target and the patch read back
unchanged after the call.  The result, however, is NOT unconditionally
independent of the caller's structures (see the counterexample: the patch
is not cloned, so containers inside the patch can smuggle references to
the original target into the result); it is independent of the target's
region whenever the patch provably does not alias it: mutating any cell
of an isolated region `T` that the patch avoids leaves the result's
read-back unchanged. -/
theorem c6_copy_isolation (f g : Nat) (h : Heap) (t p : HVal) (h2 : Heap)
    (r : HVal) (hwb : heapWB h = true) (ht : valBelow h.nxt t = true)
    (hp : valBelow h.nxt p = true) (hm : mergeCopy f h t p = some (h2, r)) :
    (∀ a, a < h.nxt → lookupCell h2 a = lookupCell h a) ∧
    readBack g h2 t = readBack g h t ∧
    readBack g h2 p = readBack g h p ∧
    (∀ T : List Nat, (∀ x, T.contains x = true → x < h.nxt) →
      cellsNotIn T h.cells = true → valNotIn T p = true →
      ∀ a0 o0, T.contains a0 = true →
        readBack g (setCell h2 a0 o0) r = readBack g h2 r) := by
  unfold mergeCopy at hm
  cases hcl : cloneV f h t with
  | none => rw [hcl] at hm; simp at hm
  | some pr =>
    obtain ⟨h1, t2⟩ := pr
    rw [hcl] at hm
    simp only [] at hm
    obtain ⟨cl1, cl2, cl3, cl4, cl5, cl6⟩ := (cloneSpec f).1 h t h1 t2 hcl
    have hOK0 : heapOKB h.nxt h.cells = true := heapOKB_of_cellsWB hwb
    have hOK1 : heapOKB h.nxt h1.cells = true := cl3 h.nxt le_rfl hOK0
    have hft2 : fieldOKB h.nxt t2 = true := cl4 h.nxt le_rfl
    have hTBnil : ∀ x, ([] : List Nat).contains x = true → x < h.nxt := by
      intro x hx
      simp at hx
    obtain ⟨m1, m2, m3, m4, m5, m6⟩ :=
      (mergeSpec h.nxt [] hTBnil f).1 h1 t2 p h2 r hm cl2 hOK1 hft2
        (cellsNotIn_nilT _) (valNotIn_nilT _)
    have pres : ∀ a, a < h.nxt → lookupCell h2 a = lookupCell h a := by
      intro a ha
      rw [m1 a ha, cl1 a ha]
    have hagree := readBackAgree h.nxt h h2 pres hwb g
    refine ⟨pres, hagree.1 t ht, hagree.1 p hp, ?_⟩
    intro T hT hcT hpT a0 o0 ha0
    have hcT1 : cellsNotIn T h1.cells = true := cl6 T hT hcT
    obtain ⟨n1, n2, n3, n4, n5, n6⟩ :=
      (mergeSpec h.nxt T hT f).1 h1 t2 p h2 r hm cl2 hOK1 hft2 hcT1 hpT
    exact (readBackSetT T h2 a0 o0 ha0 n6 g).1 r n5

/-- C6, counterexample to "the result is fully independent": the target
is cell 0, the patch (cell 1) holds an array whose element is a reference
to cell 0.  The copy-mode merge deep-clones the target into fresh cell 2
but stores the patch's array — reference and all — into the result, so
mutating the caller's original target cell afterwards changes what the
result reads back as. -/
theorem c6_counterexample :
    mergeCopy 10 ⟨[(0, [("x", .hnum 1)]), (1, [("k", .harr [.href 0])])], 2⟩
      (.href 0) (.href 1) =
    some (⟨[(2, [("x", .hnum 1), ("k", .harr [.href 0])]),
      (0, [("x", .hnum 1)]), (1, [("k", .harr [.href 0])])], 3⟩, .href 2) ∧
    readBack 10
      (setCell ⟨[(2, [("x", .hnum 1), ("k", .harr [.href 0])]),
        (0, [("x", .hnum 1)]), (1, [("k", .harr [.href 0])])], 3⟩ 0
        [("x", .hnum 2)])
      (.href 2) ≠
    readBack 10 ⟨[(2, [("x", .hnum 1), ("k", .harr [.href 0])]),
      (0, [("x", .hnum 1)]), (1, [("k", .harr [.href 0])])], 3⟩ (.href 2) := by
  constructor
  · decide
  · decide

/-- C6, witness: a two-cell heap, target cell 0 and patch cell 1; the
merge clones the target into cell 2, merges there, and every pre-existing
cell — target and patch included — is untouched. -/
theorem c6_witness :
    (∀ a, a < (⟨[(0, [("x", .hnum 1)]), (1, [("y", .hnum 2)])], 2⟩ : Heap).nxt →
      lookupCell (⟨[(2, [("x", .hnum 1), ("y", .hnum 2)]),
        (0, [("x", .hnum 1)]), (1, [("y", .hnum 2)])], 3⟩ : Heap) a =
      lookupCell (⟨[(0, [("x", .hnum 1)]), (1, [("y", .hnum 2)])], 2⟩ : Heap) a) ∧
    readBack 5 (⟨[(2, [("x", .hnum 1), ("y", .hnum 2)]),
        (0, [("x", .hnum 1)]), (1, [("y", .hnum 2)])], 3⟩ : Heap) (.href 0) =
      readBack 5 (⟨[(0, [("x", .hnum 1)]), (1, [("y", .hnum 2)])], 2⟩ : Heap)
        (.href 0) ∧
    readBack 5 (⟨[(2, [("x", .hnum 1), ("y", .hnum 2)]),
        (0, [("x", .hnum 1)]), (1, [("y", .hnum 2)])], 3⟩ : Heap) (.href 1) =
      readBack 5 (⟨[(0, [("x", .hnum 1)]), (1, [("y", .hnum 2)])], 2⟩ : Heap)
        (.href 1) ∧
    (∀ T : List Nat,
      (∀ x, T.contains x = true →
        x < (⟨[(0, [("x", .hnum 1)]), (1, [("y", .hnum 2)])], 2⟩ : Heap).nxt) →
      cellsNotIn T
        (⟨[(0, [("x", .hnum 1)]), (1, [("y", .hnum 2)])], 2⟩ : Heap).cells
        = true →
      valNotIn T (.href 1) = true →
      ∀ a0 o0, T.contains a0 = true →
        readBack 5 (setCell (⟨[(2, [("x", .hnum 1), ("y", .hnum 2)]),
          (0, [("x", .hnum 1)]), (1, [("y", .hnum 2)])], 3⟩ : Heap) a0 o0)
          (.href 2) =
        readBack 5 (⟨[(2, [("x", .hnum 1), ("y", .hnum 2)]),
          (0, [("x", .hnum 1)]), (1, [("y", .hnum 2)])], 3⟩ : Heap) (.href 2)) :=
  c6_copy_isolation 10 5 _ _ _ _ _ (by decide) (by decide) (by decide)
    (by decide)

/-- C7: applying the same canonical patch twice is the same as applying
it once. -/
theorem c7_idempotent (t p : Json) (ht : canonB t = true)
    (hp : canonB p = true) :
    deepEqual (mergePatch (mergePatch t p) p) (mergePatch t p) = true := by
  rw [deepEqual_iff]
  exact mergePatch_idem t p ht hp

/-- C7, witness: idempotence at a patch exercising deletion, nested merge
and replacement at once. -/
theorem c7_witness :
    deepEqual
      (mergePatch
        (mergePatch (Json.obj [("a", Json.obj [("b", Json.str "c")]), ("d", Json.num 7)])
          (Json.obj [("a", Json.obj [("b", Json.str "d")]), ("d", Json.null),
            ("e", Json.arr [Json.num 1])]))
        (Json.obj [("a", Json.obj [("b", Json.str "d")]), ("d", Json.null),
          ("e", Json.arr [Json.num 1])]))
      (mergePatch (Json.obj [("a", Json.obj [("b", Json.str "c")]), ("d", Json.num 7)])
        (Json.obj [("a", Json.obj [("b", Json.str "d")]), ("d", Json.null),
          ("e", Json.arr [Json.num 1])])) = true :=
  c7_idempotent _ _ (by decide) (by decide)

/-- C8: converting serialized bytes succeeds exactly when the bytes parse
as JSON; converting serialized text never fails — unparseable text becomes
the raw String scalar; and `Valid` holds exactly of the documents that
convert. -/
theorem c8_conversion (s : String) (d : GoDoc) :
    ((convertToInterface (GoDoc.bytes s)).isSome = (parseJson s).isSome) ∧
    (convertToInterface (GoDoc.text s)).isSome = true ∧
    (parseJson s = none → convertToInterface (GoDoc.text s) = some (.str s)) ∧
    (Valid d = true ↔ (convertToInterface d).isSome = true) := by
  refine ⟨?_, ?_, ?_, Iff.rfl⟩
  · cases hp : parseJson s with
    | none => simp [convertToInterface, hp]
    | some v => simp [convertToInterface, hp]
  · cases hp : parseJson s with
    | none => simp [convertToInterface, hp]
    | some v => simp [convertToInterface, hp]
  · intro hp
    simp [convertToInterface, hp]

/-- C9: a default (copy) mode merge never mutates its patch argument
either: every pre-existing cell is untouched (the merge writes only into
the freshly cloned target region), so the patch reads back exactly as
before the call. -/
theorem c9_patch_preserved (f g : Nat) (h : Heap) (t p : HVal) (h2 : Heap)
    (r : HVal) (hwb : heapWB h = true) (hp : valBelow h.nxt p = true)
    (hm : mergeCopy f h t p = some (h2, r)) :
    (∀ a, a < h.nxt → lookupCell h2 a = lookupCell h a) ∧
    readBack g h2 p = readBack g h p := by
  unfold mergeCopy at hm
  cases hcl : cloneV f h t with
  | none => rw [hcl] at hm; simp at hm
  | some pr =>
    obtain ⟨h1, t2⟩ := pr
    rw [hcl] at hm
    simp only [] at hm
    obtain ⟨cl1, cl2, cl3, cl4, cl5, cl6⟩ := (cloneSpec f).1 h t h1 t2 hcl
    have hOK0 : heapOKB h.nxt h.cells = true := heapOKB_of_cellsWB hwb
    have hTBnil : ∀ x, ([] : List Nat).contains x = true → x < h.nxt := by
      intro x hx
      simp at hx
    obtain ⟨m1, m2, m3, m4, m5, m6⟩ :=
      (mergeSpec h.nxt [] hTBnil f).1 h1 t2 p h2 r hm cl2
        (cl3 h.nxt le_rfl hOK0) (cl4 h.nxt le_rfl)
        (cellsNotIn_nilT _) (valNotIn_nilT _)
    have pres : ∀ a, a < h.nxt → lookupCell h2 a = lookupCell h a := by
      intro a ha
      rw [m1 a ha, cl1 a ha]
    exact ⟨pres, (readBackAgree h.nxt h h2 pres hwb g).1 p hp⟩

/-- C9, witness: the patch cell of a concrete two-cell heap reads back
unchanged after a copy-mode merge, its contents holding an array. -/
theorem c9_witness :
    (∀ a, a < (⟨[(0, [("x", .hnum 1)]), (1, [("k", .harr [.href 0])])], 2⟩ :
        Heap).nxt →
      lookupCell (⟨[(2, [("x", .hnum 1), ("k", .harr [.href 0])]),
        (0, [("x", .hnum 1)]), (1, [("k", .harr [.href 0])])], 3⟩ : Heap) a =
      lookupCell
        (⟨[(0, [("x", .hnum 1)]), (1, [("k", .harr [.href 0])])], 2⟩ : Heap)
        a) ∧
    readBack 5 (⟨[(2, [("x", .hnum 1), ("k", .harr [.href 0])]),
        (0, [("x", .hnum 1)]), (1, [("k", .harr [.href 0])])], 3⟩ : Heap)
      (.href 1) =
    readBack 5
      (⟨[(0, [("x", .hnum 1)]), (1, [("k", .harr [.href 0])])], 2⟩ : Heap)
      (.href 1) :=
  c9_patch_preserved 10 5
    ⟨[(0, [("x", .hnum 1)]), (1, [("k", .harr [.href 0])])], 2⟩ (.href 0)
    (.href 1)
    ⟨[(2, [("x", .hnum 1), ("k", .harr [.href 0])]), (0, [("x", .hnum 1)]),
      (1, [("k", .harr [.href 0])])], 3⟩ (.href 2) (by decide) (by decide)
    (by decide)

/-- C10: the empty Object patch is an identity precisely on Object
targets; any non-Object target is discarded and the merge returns the
empty Object. -/
theorem c10_empty_patch (t : Json) :
    (isObject t = true → mergePatch t (.obj []) = t) ∧
    (isObject t = false → mergePatch t (.obj []) = .obj []) := by
  cases t with
  | obj kvs => exact ⟨fun _ => rfl, fun hno => by simp [isObject] at hno⟩
  | null => exact ⟨fun hyes => by simp [isObject] at hyes, fun _ => rfl⟩
  | bool b => exact ⟨fun hyes => by simp [isObject] at hyes, fun _ => rfl⟩
  | num n => exact ⟨fun hyes => by simp [isObject] at hyes, fun _ => rfl⟩
  | str s => exact ⟨fun hyes => by simp [isObject] at hyes, fun _ => rfl⟩
  | arr xs => exact ⟨fun hyes => by simp [isObject] at hyes, fun _ => rfl⟩
